import Mathlib

/-!
Shallow embedding of the `typeid-postgres` core (base32 codec and TypeID
value type) from `src/base32.rs`, `src/typeid.rs`, `src/aggregate.rs` and
`src/lib.rs`.

Strings are modelled as lists of byte values (`List Nat`); all the Rust
code in question operates on the UTF-8 byte representation (`as_bytes`,
`len`, splitting on the single-byte ASCII character `'_'`), so this is a
faithful view.  `u128` arithmetic is modelled on `Nat` with explicit
`% 2 ^ 128` where the Rust operation wraps.
-/

namespace TypeidPg

/-- Byte value of the separator character `'_'`. -/
def underscoreByte : Nat := 95

/-- `const CROCKFORD: &[u8; 32] = b"0123456789abcdefghjkmnpqrstvwxyz"`
(byte values of the 32 Crockford symbols, in code order). -/
def CROCKFORD : List Nat :=
  [48, 49, 50, 51, 52, 53, 54, 55, 56, 57,
   97, 98, 99, 100, 101, 102, 103, 104, 106, 107, 109, 110, 112, 113,
   114, 115, 116, 118, 119, 120, 121, 122]

/-- The 256-entry inverse table `CROCKFORD_INV`: every byte that occurs in
`CROCKFORD` maps to its index (its 5-bit code), every other byte maps to the
sentinel `255`.  The source builds this as a `const` array with
`output[CROCKFORD[i]] = i`; since the alphabet entries are distinct, the
table's defining property is exactly "index of `b` in `CROCKFORD`, else
255", which is what this function computes. -/
def CROCKFORD_INV (b : Nat) : Nat :=
  let i := CROCKFORD.findIdx (fun c => c == b)
  if i < 32 then i else 255

/-- Structured form of the `InvalidEncoding { reason }` strings produced by
`decode_base32_to_u128` (the source formats these into free text; the three
reasons are "expected 26 characters, got N", "invalid character 'c' at
position i" and "value too large (would overflow 128-bit UUID)"). -/
inductive B32Err where
  | lengthMismatch (got : Nat)
  | invalidChar (c : Nat) (pos : Nat)
  | overflow
deriving DecidableEq, Repr

/-- The in-place inversion loop of `decode_base32_to_u128`: replaces each
byte by `CROCKFORD_INV[b]`, returning the `invalid character ... at
position ...` error at the first byte whose code is the sentinel 255.
`i` is the position of the head of the remaining list. -/
def invertChars : List Nat → Nat → Except B32Err (List Nat)
  | [], _ => .ok []
  | b :: rest, i =>
    let v := CROCKFORD_INV b
    if v = 255 then .error (.invalidChar b i)
    else
      match invertChars rest (i + 1) with
      | .error e => .error e
      | .ok vs => .ok (v :: vs)

/-- `fn decode_base32_to_u128(id: &str) -> Result<u128, Error>`.
Length check, per-byte inversion through `CROCKFORD_INV` (accumulating
`max |= *b`), the overflow guard `max > 32 || id[0] > 7`, then the
accumulation loop `out <<= 5; out |= b` on `u128` (hence the explicit
`% 2 ^ 128`). -/
def decode_base32_to_u128 (id : List Nat) : Except B32Err Nat :=
  if id.length ≠ 26 then .error (.lengthMismatch id.length)
  else
    match invertChars id 0 with
    | .error e => .error e
    | .ok codes =>
      let mx := codes.foldl (fun m b => m ||| b) 0
      if mx > 32 ∨ codes.headD 0 > 7 then .error .overflow
      else .ok (codes.foldl (fun out b => ((out <<< 5) ||| b) % 2 ^ 128) 0)

/-- The write loop of `encode_u128_to_base32`: the loop runs `i` from 25
down to 0, writing `CROCKFORD[data & 0x1f]` at index `i` and then shifting
`data >>= 5`; so position `n-1` of the result holds the lowest 5-bit group
and position 0 the highest.  (`data & 0x1f` is `data % 32`, `data >> 5` is
`data / 32`.) -/
def encChars : Nat → Nat → List Nat
  | 0, _ => []
  | n + 1, data => encChars n (data / 32) ++ [CROCKFORD.getD (data % 32) 0]

/-- `fn encode_u128_to_base32(data: u128) -> String`: 26 symbols,
most-significant 5-bit group first. -/
def encode_u128_to_base32 (data : Nat) : List Nat :=
  encChars 26 data

/-- Structured form of the `InvalidPrefix { reason }` strings produced by
`TypeIDPrefix::validate_prefix` (the source formats each of these into
free text carrying the same data). -/
inductive PrefixReason where
  | tooLong (len : Nat)
  | leadingUnderscore
  | trailingUnderscore
  | uppercase (c : Nat) (pos : Nat)
  | digit (c : Nat) (pos : Nat)
  | invalidChar (c : Nat) (pos : Nat)
deriving DecidableEq, Repr

/-- Structured form of the `InvalidSuffix { reason }` payload in
`TypeID::from_string`: either its own "expected 26 characters, got N"
length message, or a codec error rendered with `e.to_string()`. -/
inductive SuffixReason where
  | wrongLength (got : Nat)
  | codec (e : B32Err)
deriving DecidableEq, Repr

/-- `enum Error` of `src/typeid.rs` (the `InvalidFormat` reason string is
the fixed text "TypeID cannot start with separator '_'", so it carries no
data). -/
inductive TError where
  | InvalidFormat
  | InvalidPrefix (actual : List Nat) (reason : PrefixReason)
  | InvalidSuffix (reason : SuffixReason)
  | TooLong
deriving DecidableEq, Repr

/-- The character-scan loop of `validate_prefix`: `i` is the position of
the head of the remaining list; returns the first offending byte's reason,
or `none` if every byte is `a`-`z` or `_`. -/
def scanPrefixChars : List Nat → Nat → Option PrefixReason
  | [], _ => none
  | b :: rest, i =>
    if (97 ≤ b ∧ b ≤ 122) ∨ b = underscoreByte then scanPrefixChars rest (i + 1)
    else if 65 ≤ b ∧ b ≤ 90 then some (.uppercase b i)
    else if 48 ≤ b ∧ b ≤ 57 then some (.digit b i)
    else some (.invalidChar b i)

/-- `fn validate_prefix(tag: &str) -> Result<(), Error>`: length check,
empty is valid, first/last byte must not be `'_'`, then the per-byte scan. -/
def validate_prefix (tag : List Nat) : Except TError Unit :=
  if tag.length > 63 then .error (.InvalidPrefix tag (.tooLong tag.length))
  else if tag.isEmpty then .ok ()
  else if tag.headD 0 = underscoreByte then .error (.InvalidPrefix tag .leadingUnderscore)
  else if tag.getLastD 0 = underscoreByte then .error (.InvalidPrefix tag .trailingUnderscore)
  else
    match scanPrefixChars tag 0 with
    | some r => .error (.InvalidPrefix tag r)
    | none => .ok ()

/-- `struct TypeIDPrefix(String)`: a plain wrapper, validity is a
by-construction discipline, not a bundled invariant (mirroring the Rust
newtype). -/
structure TypeIDPrefix where
  bytes : List Nat
deriving DecidableEq, Repr

/-- `TypeIDPrefix::new`. -/
def TypeIDPrefix.new (tag : List Nat) : Except TError TypeIDPrefix :=
  match validate_prefix tag with
  | .error e => .error e
  | .ok _ => .ok ⟨tag⟩

/-- `TypeIDPrefix::try_unsafe`: wraps the tag with no validation. -/
def TypeIDPrefix.try_unsafe (tag : List Nat) : TypeIDPrefix :=
  ⟨tag⟩

/-- `struct TypeID(TypeIDPrefix, Uuid)`; the `Uuid` is its 128-bit value
(`Uuid::as_u128` / `Uuid::from_u128` are the loss-less bridges used by the
codec calls). -/
structure TypeID where
  pfx : TypeIDPrefix
  uuid : Nat
deriving DecidableEq, Repr

/-- `TypeID::new` (pairs an already-validated prefix with a value). -/
def TypeID.new (p : TypeIDPrefix) (u : Nat) : TypeID :=
  ⟨p, u⟩

/-- `TypeID::new_nil`: `TypeID(TypeIDPrefix::new("").unwrap(), uuid)`
(validating the empty string always succeeds with the empty wrapper). -/
def TypeID.new_nil (u : Nat) : TypeID :=
  ⟨⟨[]⟩, u⟩

/-- `str::rsplit_once('_')` on byte lists: splits at the LAST occurrence of
`sep`, returning (part before, part after); `none` when `sep` does not
occur. -/
def rsplitOnce (l : List Nat) (sep : Nat) : Option (List Nat × List Nat) :=
  match l with
  | [] => none
  | b :: rest =>
    match rsplitOnce rest sep with
    | some (pre, suf) => some (b :: pre, suf)
    | none => if b = sep then some ([], rest) else none

/-- The continuation of `TypeID::from_string` after the split: suffix
length check, codec decode (codec errors wrapped as `InvalidSuffix`), then
prefix validation via `TypeIDPrefix::new`. -/
def fromParts (tag suffix : List Nat) : Except TError TypeID :=
  if suffix.length ≠ 26 then .error (.InvalidSuffix (.wrongLength suffix.length))
  else
    match decode_base32_to_u128 suffix with
    | .error e => .error (.InvalidSuffix (.codec e))
    | .ok u =>
      match TypeIDPrefix.new tag with
      | .error e => .error e
      | .ok p => .ok ⟨p, u⟩

/-- `TypeID::from_string`: length fast-reject, `rsplit_once('_')` with the
`Some(("", _))` arm rejected as `InvalidFormat`, then `fromParts`. -/
def TypeID.from_string (id : List Nat) : Except TError TypeID :=
  if id.length > 89 then .error .TooLong
  else
    match rsplitOnce id underscoreByte with
    | some ([], _) => .error .InvalidFormat
    | some (tag, rest) => fromParts tag rest
    | none => fromParts [] id

/-- `impl fmt::Display for TypeID`: `prefix + "_" + encode(uuid)` when the
prefix is non-empty, else just `encode(uuid)`. -/
def TypeID.toString (t : TypeID) : List Nat :=
  if t.pfx.bytes.isEmpty then encode_u128_to_base32 t.uuid
  else t.pfx.bytes ++ underscoreByte :: encode_u128_to_base32 t.uuid

/-- Lexicographic byte-wise comparison: `Ord for str` in Rust (shorter
prefix of the other compares less). -/
def bytesCmp : List Nat → List Nat → Ordering
  | [], [] => .eq
  | [], _ :: _ => .lt
  | _ :: _, [] => .gt
  | a :: as, b :: bs =>
    match compare a b with
    | .eq => bytesCmp as bs
    | o => o

/-- `impl Ord for TypeID`: prefix compared first (byte-wise string
comparison), then the value.  `Ord for Uuid` compares the 16-byte array
lexicographically, which on big-endian UUID bytes is exactly unsigned
128-bit numeric order, modelled by `compare` on `Nat`. -/
def TypeID.cmp (a b : TypeID) : Ordering :=
  match bytesCmp a.pfx.bytes b.pfx.bytes with
  | .eq => compare a.uuid b.uuid
  | o => o

/-- `a < b` on TypeIDs: the aggregate code uses the derived `PartialOrd`,
which compares the fields lexicographically (prefix string, then uuid) —
the same order as the manual `Ord` impl — so `lt` is `cmp = .lt`. -/
def TypeID.lt (a b : TypeID) : Bool :=
  TypeID.cmp a b == .lt

/-- `Aggregate<TypeIDMin>::state`: `None => Some(arg)`,
`Some(current) => Some(if arg < current { arg } else { current })`. -/
def minState (current : Option TypeID) (arg : TypeID) : Option TypeID :=
  match current with
  | none => some arg
  | some c => some (if TypeID.lt arg c then arg else c)

/-- `Aggregate<TypeIDMin>::combine`: `(None, s) | (s, None) => s`,
`(Some(a), Some(b)) => Some(if a < b { a } else { b })`. -/
def minCombine (left right : Option TypeID) : Option TypeID :=
  match left, right with
  | none, s => s
  | s, none => s
  | some a, some b => some (if TypeID.lt a b then a else b)

/-- `Aggregate<TypeIDMax>::state` (`arg > current`, i.e. `current < arg`). -/
def maxState (current : Option TypeID) (arg : TypeID) : Option TypeID :=
  match current with
  | none => some arg
  | some c => some (if TypeID.lt c arg then arg else c)

/-- `Aggregate<TypeIDMax>::combine`. -/
def maxCombine (left right : Option TypeID) : Option TypeID :=
  match left, right with
  | none, s => s
  | s, none => s
  | some a, some b => some (if TypeID.lt b a then a else b)

/-- `impl Hash for TypeID` feeds exactly the prefix bytes and the 128-bit
value into the hasher; `typeid_hash` then runs a fixed, seed-free hasher
(`GxHasher::default()`, an external crate) over that stream and truncates
to `i32`.  The repository-determined part is this input pair; the hasher
itself is an arbitrary function of it. -/
def hashInput (t : TypeID) : List Nat × Nat :=
  (t.pfx.bytes, t.uuid)

/-- The raw 5-bit digit list of `v`, most-significant first, `n` digits:
`encChars` before the alphabet lookup. -/
def digitsOf : Nat → Nat → List Nat
  | 0, _ => []
  | n + 1, v => digitsOf n (v / 32) ++ [v % 32]

/-- Accumulating base-32 value of a digit list (the pure, non-wrapping
form of the decode loop). -/
def b32val (acc : Nat) (l : List Nat) : Nat :=
  l.foldl (fun out b => out * 32 + b) acc

/-! ### Groundwork: bit-level and base-32 arithmetic -/

lemma shl5_or_eq (a b : Nat) (hb : b < 32) : (a <<< 5) ||| b = a * 32 + b := by
  have h32 : (32 : Nat) = 2 ^ 5 := by norm_num
  have hmod : ((a <<< 5) ||| b) % 32 = b := by
    have h1 : ((a <<< 5) ||| b) &&& (2 ^ 5 - 1) = ((a <<< 5) ||| b) % 2 ^ 5 :=
      Nat.and_pow_two_sub_one_eq_mod _ 5
    have h2 : ((a <<< 5) ||| b) &&& (2 ^ 5 - 1)
        = ((a <<< 5) &&& (2 ^ 5 - 1)) ||| (b &&& (2 ^ 5 - 1)) :=
      Nat.and_distrib_right _ _ _
    have h3 : (a <<< 5) &&& (2 ^ 5 - 1) = 0 := by
      rw [Nat.and_pow_two_sub_one_eq_mod, Nat.shiftLeft_eq]
      simp [Nat.mul_mod_left]
    have h4 : b &&& (2 ^ 5 - 1) = b := by
      rw [Nat.and_pow_two_sub_one_eq_mod]
      exact Nat.mod_eq_of_lt (by omega)
    rw [h32, ← h1, h2, h3, h4, Nat.zero_or]
  have hdiv : ((a <<< 5) ||| b) / 32 = a := by
    have h1 : ((a <<< 5) ||| b) >>> 5 = ((a <<< 5) >>> 5) ||| (b >>> 5) := by
      apply Nat.eq_of_testBit_eq
      intro i
      simp [Nat.testBit_shiftRight, Nat.testBit_lor]
    have h2 : (a <<< 5) >>> 5 = a := by
      rw [Nat.shiftLeft_eq, Nat.shiftRight_eq_div_pow]
      exact Nat.mul_div_cancel a (by norm_num)
    have h3 : b >>> 5 = 0 := by
      rw [Nat.shiftRight_eq_div_pow]
      exact Nat.div_eq_of_lt (by omega)
    have h4 : ((a <<< 5) ||| b) >>> 5 = ((a <<< 5) ||| b) / 2 ^ 5 :=
      Nat.shiftRight_eq_div_pow _ 5
    rw [h32, ← h4, h1, h2, h3, Nat.or_zero]
  have := Nat.div_add_mod ((a <<< 5) ||| b) 32
  omega

lemma foldl_lor_lt (l : List Nat) (hl : ∀ b ∈ l, b < 32) :
    ∀ acc, acc < 32 → l.foldl (fun m b => m ||| b) acc < 32 := by
  induction l with
  | nil => intro acc h; simpa using h
  | cons c rest ih =>
    intro acc hacc
    have hc : c < 32 := hl c (by simp)
    have h32 : (32 : Nat) = 2 ^ 5 := by norm_num
    have : acc ||| c < 32 := by
      rw [h32] at hacc hc ⊢
      exact Nat.or_lt_two_pow hacc hc
    exact ih (fun b hb => hl b (by simp [hb])) _ this

lemma b32val_cons (acc c : Nat) (l : List Nat) :
    b32val acc (c :: l) = b32val (acc * 32 + c) l := rfl

lemma b32val_append (acc : Nat) (l₁ l₂ : List Nat) :
    b32val acc (l₁ ++ l₂) = b32val (b32val acc l₁) l₂ := by
  simp [b32val, List.foldl_append]

lemma b32val_acc (acc : Nat) (l : List Nat) :
    b32val acc l = acc * 32 ^ l.length + b32val 0 l := by
  induction l generalizing acc with
  | nil => simp [b32val]
  | cons c rest ih =>
    rw [b32val_cons, b32val_cons, ih (acc * 32 + c), ih (0 * 32 + c)]
    simp only [List.length_cons, Nat.pow_succ]
    ring

lemma b32val_lt (l : List Nat) (hl : ∀ b ∈ l, b < 32) :
    b32val 0 l < 32 ^ l.length := by
  induction l with
  | nil => simp [b32val]
  | cons c rest ih =>
    have hc : c < 32 := hl c (by simp)
    have hr := ih (fun b hb => hl b (by simp [hb]))
    have hp : 0 < (32 : Nat) ^ rest.length := Nat.pow_pos (by norm_num)
    rw [b32val_cons, b32val_acc]
    simp only [List.length_cons, Nat.pow_succ, Nat.zero_mul, Nat.zero_add]
    nlinarith

lemma foldl_wrap_eq_b32val (l : List Nat) :
    ∀ acc, (∀ b ∈ l, b < 32) → acc * 32 ^ l.length + b32val 0 l < 2 ^ 128 →
    l.foldl (fun out b => ((out <<< 5) ||| b) % 2 ^ 128) acc = b32val acc l := by
  induction l with
  | nil => intro acc _ _; simp [b32val]
  | cons c rest ih =>
    intro acc hl hb
    have hc : c < 32 := hl c (by simp)
    have hrest : ∀ b ∈ rest, b < 32 := fun b hb => hl b (by simp [hb])
    have hvc : b32val 0 (c :: rest) = c * 32 ^ rest.length + b32val 0 rest := by
      rw [b32val_cons, b32val_acc]; ring_nf
    have hp : 1 ≤ (32 : Nat) ^ rest.length := Nat.one_le_pow _ _ (by norm_num)
    rw [List.length_cons, hvc, Nat.pow_succ] at hb
    have hnext : (acc * 32 + c) * 32 ^ rest.length + b32val 0 rest < 2 ^ 128 := by
      nlinarith
    have hstep : acc * 32 + c < 2 ^ 128 := by nlinarith
    have hwrap : ((acc <<< 5) ||| c) % 2 ^ 128 = acc * 32 + c := by
      rw [shl5_or_eq acc c hc]
      exact Nat.mod_eq_of_lt hstep
    calc (c :: rest).foldl (fun out b => ((out <<< 5) ||| b) % 2 ^ 128) acc
        = rest.foldl (fun out b => ((out <<< 5) ||| b) % 2 ^ 128) (((acc <<< 5) ||| c) % 2 ^ 128) := rfl
      _ = rest.foldl (fun out b => ((out <<< 5) ||| b) % 2 ^ 128) (acc * 32 + c) := by rw [hwrap]
      _ = b32val (acc * 32 + c) rest := ih _ hrest hnext
      _ = b32val acc (c :: rest) := rfl

lemma digitsOf_length (n v : Nat) : (digitsOf n v).length = n := by
  induction n generalizing v with
  | zero => rfl
  | succ n ih => simp [digitsOf, ih]

lemma digitsOf_lt (n v : Nat) : ∀ d ∈ digitsOf n v, d < 32 := by
  induction n generalizing v with
  | zero => simp [digitsOf]
  | succ n ih =>
    intro d hd
    simp only [digitsOf, List.mem_append, List.mem_singleton] at hd
    rcases hd with h | h
    · exact ih _ d h
    · subst h; exact Nat.mod_lt _ (by norm_num)

lemma mod_pow_succ_32 (v n : Nat) :
    v % 32 ^ (n + 1) = (v / 32 % 32 ^ n) * 32 + v % 32 := by
  conv_lhs => rw [show (32 : Nat) ^ (n + 1) = 32 * 32 ^ n by ring, Nat.mod_mul]
  ring

lemma b32val_digitsOf (n v : Nat) : b32val 0 (digitsOf n v) = v % 32 ^ n := by
  induction n generalizing v with
  | zero => simp [digitsOf, b32val, Nat.mod_one]
  | succ n ih =>
    rw [digitsOf, b32val_append, ih, b32val_cons]
    simp [b32val, mod_pow_succ_32]

lemma digitsOf_b32val (codes : List Nat) :
    (∀ c ∈ codes, c < 32) → digitsOf codes.length (b32val 0 codes) = codes := by
  induction codes using List.reverseRecOn with
  | nil => intro _; rfl
  | append_singleton L c ih =>
    intro h
    have hc : c < 32 := h c (by simp)
    have hL : ∀ x ∈ L, x < 32 := fun x hx => h x (by simp [hx])
    have hval : b32val 0 (L ++ [c]) = b32val 0 L * 32 + c := by
      rw [b32val_append]; rfl
    have hlen : (L ++ [c]).length = L.length + 1 := by simp
    rw [hlen, hval, digitsOf]
    have hdiv : (b32val 0 L * 32 + c) / 32 = b32val 0 L := by
      rw [Nat.add_comm, Nat.add_mul_div_right _ _ (by norm_num : (0:Nat) < 32)]
      rw [Nat.div_eq_of_lt hc]; omega
    have hmod : (b32val 0 L * 32 + c) % 32 = c := by
      rw [Nat.add_comm, Nat.add_mul_mod_self_right]
      exact Nat.mod_eq_of_lt hc
    rw [hdiv, hmod, ih hL]

lemma digitsOf_getD (n v i : Nat) (hi : i < n) :
    (digitsOf n v).getD i 0 = v / 32 ^ (n - 1 - i) % 32 := by
  induction n generalizing v i with
  | zero => omega
  | succ n ih =>
    rw [digitsOf]
    rcases Nat.lt_or_ge i n with h | h
    · rw [List.getD_append (digitsOf n (v / 32)) _ 0 i (by rw [digitsOf_length]; exact h)]
      rw [ih _ _ h, Nat.div_div_eq_div_mul]
      congr 2
      rw [show (32 : Nat) * 32 ^ (n - 1 - i) = 32 ^ (n - 1 - i + 1) by ring]
      congr 1
      omega
    · have hin : i = n := by omega
      subst hin
      have hlen : (digitsOf i (v / 32)).length = i := digitsOf_length ..
      rw [List.getD_eq_getElem?_getD, List.getElem?_append_right (by omega)]
      simp [hlen, Nat.div_one]

/-! ### Groundwork: the Crockford alphabet and its inverse table -/

lemma CROCKFORD_length : CROCKFORD.length = 32 := by decide

lemma CROCKFORD_INV_lt_of_ne (c : Nat) (h : CROCKFORD_INV c ≠ 255) :
    CROCKFORD_INV c < 32 := by
  unfold CROCKFORD_INV at *
  by_cases hlt : CROCKFORD.findIdx (fun x => x == c) < 32
  · simp [hlt]
  · simp [hlt] at h

lemma CROCKFORD_getD_INV (c : Nat) (h : CROCKFORD_INV c ≠ 255) :
    CROCKFORD.getD (CROCKFORD_INV c) 0 = c := by
  have hlt : CROCKFORD.findIdx (fun x => x == c) < 32 := by
    by_contra hge
    unfold CROCKFORD_INV at h
    simp [hge] at h
  have hinv : CROCKFORD_INV c = CROCKFORD.findIdx (fun x => x == c) := by
    unfold CROCKFORD_INV
    simp [hlt]
  have hlen : CROCKFORD.findIdx (fun x => x == c) < CROCKFORD.length := by
    rw [CROCKFORD_length]; exact hlt
  have := List.findIdx_getElem (w := hlen)
  rw [hinv, List.getD_eq_getElem?_getD, List.getElem?_eq_getElem hlen]
  simpa using this

lemma CROCKFORD_INV_getD (d : Nat) (hd : d < 32) :
    CROCKFORD_INV (CROCKFORD.getD d 0) = d := by
  interval_cases d <;> decide

lemma CROCKFORD_INV_ne_of_mem (c : Nat) (h : c ∈ CROCKFORD) :
    CROCKFORD_INV c ≠ 255 := by
  fin_cases h <;> decide

lemma CROCKFORD_getD_mem (d : Nat) (hd : d < 32) :
    CROCKFORD.getD d 0 ∈ CROCKFORD := by
  rw [List.getD_eq_getElem _ _ (by rw [CROCKFORD_length]; exact hd)]
  exact List.getElem_mem _

lemma CROCKFORD_INV_eq_255_of_not_mem (c : Nat) (h : c ∉ CROCKFORD) :
    CROCKFORD_INV c = 255 := by
  unfold CROCKFORD_INV
  have : CROCKFORD.findIdx (fun x => x == c) = CROCKFORD.length := by
    apply List.findIdx_eq_length_of_false
    intro x hx
    simp only [beq_eq_false_iff_ne, ne_eq]
    intro hxc; exact h (hxc ▸ hx)
  rw [this, CROCKFORD_length]
  simp

/-! ### Groundwork: the inversion loop and the codec round trip -/

lemma invertChars_ok_of_valid (l : List Nat) (hl : ∀ c ∈ l, CROCKFORD_INV c ≠ 255) :
    ∀ i, invertChars l i = .ok (l.map CROCKFORD_INV) := by
  induction l with
  | nil => intro i; rfl
  | cons c rest ih =>
    intro i
    have hc : CROCKFORD_INV c ≠ 255 := hl c (by simp)
    have hr := ih (fun x hx => hl x (by simp [hx])) (i + 1)
    simp only [invertChars, hc, if_neg hc, hr]
    rfl

lemma invertChars_ok_elim (l : List Nat) :
    ∀ i codes, invertChars l i = .ok codes →
      codes = l.map CROCKFORD_INV ∧ ∀ c ∈ l, CROCKFORD_INV c ≠ 255 := by
  induction l with
  | nil =>
    intro i codes h
    simp only [invertChars] at h
    cases h
    exact ⟨rfl, by simp⟩
  | cons c rest ih =>
    intro i codes h
    simp only [invertChars] at h
    by_cases hc : CROCKFORD_INV c = 255
    · rw [if_pos hc] at h; cases h
    · rw [if_neg hc] at h
      cases hr : invertChars rest (i + 1) with
      | error e => rw [hr] at h; cases h
      | ok vs =>
        rw [hr] at h
        cases h
        obtain ⟨hmap, hall⟩ := ih (i + 1) vs hr
        constructor
        · simp [hmap]
        · intro x hx
          rcases List.mem_cons.mp hx with h | h
          · exact h ▸ hc
          · exact hall x h

lemma invertChars_error_at (l : List Nat) :
    ∀ i j, j < l.length → CROCKFORD_INV (l.getD j 0) = 255 →
      (∀ k < j, CROCKFORD_INV (l.getD k 0) ≠ 255) →
      invertChars l i = .error (.invalidChar (l.getD j 0) (i + j)) := by
  induction l with
  | nil => intro i j hj _ _; simp at hj
  | cons c rest ih =>
    intro i j hj hbad hok
    cases j with
    | zero =>
      simp only [List.getD_cons_zero] at hbad ⊢
      simp only [invertChars, if_pos hbad, Nat.add_zero]
    | succ j =>
      have hc : CROCKFORD_INV c ≠ 255 := by
        have := hok 0 (Nat.succ_pos j)
        simpa using this
      simp only [List.getD_cons_succ] at hbad ⊢
      have hr := ih (i + 1) j (by simpa using hj) hbad
        (fun k hk => by
          have := hok (k + 1) (by omega)
          simpa using this)
      simp only [invertChars, if_neg hc, hr]
      congr 1
      congr 1
      omega

lemma encChars_eq_map (n v : Nat) :
    encChars n v = (digitsOf n v).map (fun d => CROCKFORD.getD d 0) := by
  induction n generalizing v with
  | zero => rfl
  | succ n ih => simp [encChars, digitsOf, ih]

lemma b32val_head_lt (codes : List Nat) (h26 : codes.length = 26)
    (hlt : ∀ c ∈ codes, c < 32) (h7 : codes.headD 0 ≤ 7) :
    b32val 0 codes < 2 ^ 128 := by
  cases codes with
  | nil => simp at h26
  | cons c0 rest =>
    have hr : b32val 0 rest < 32 ^ rest.length :=
      b32val_lt rest (fun b hb => hlt b (by simp [hb]))
    have hrl : rest.length = 25 := by simpa using h26
    have h0 : c0 ≤ 7 := by simpa using h7
    rw [b32val_cons, b32val_acc]
    rw [hrl] at hr ⊢
    have : (0 * 32 + c0) * 32 ^ 25 + b32val 0 rest ≤ 7 * 32 ^ 25 + b32val 0 rest := by
      have : (0 * 32 + c0) * 32 ^ 25 ≤ 7 * 32 ^ 25 :=
        Nat.mul_le_mul_right _ (by omega)
      omega
    calc (0 * 32 + c0) * 32 ^ 25 + b32val 0 rest
        ≤ 7 * 32 ^ 25 + b32val 0 rest := this
      _ < 7 * 32 ^ 25 + 32 ^ 25 := by omega
      _ = 2 ^ 128 := by norm_num

lemma decode_of_valid (l : List Nat) (h26 : l.length = 26)
    (hval : ∀ c ∈ l, CROCKFORD_INV c ≠ 255)
    (h7 : CROCKFORD_INV (l.headD 0) ≤ 7) :
    decode_base32_to_u128 l = .ok (b32val 0 (l.map CROCKFORD_INV)) := by
  have hcodes : ∀ c ∈ l.map CROCKFORD_INV, c < 32 := by
    intro c hc
    rcases List.mem_map.mp hc with ⟨x, hx, rfl⟩
    exact CROCKFORD_INV_lt_of_ne x (hval x hx)
  have hlen : (l.map CROCKFORD_INV).length = 26 := by simpa using h26
  have hhead : (l.map CROCKFORD_INV).headD 0 = CROCKFORD_INV (l.headD 0) := by
    cases l with
    | nil => simp at h26
    | cons c rest => rfl
  have hmx : (l.map CROCKFORD_INV).foldl (fun m b => m ||| b) 0 < 32 :=
    foldl_lor_lt _ hcodes 0 (by norm_num)
  have hbound : b32val 0 (l.map CROCKFORD_INV) < 2 ^ 128 :=
    b32val_head_lt _ hlen hcodes (by rw [hhead]; exact h7)
  have hfold : (l.map CROCKFORD_INV).foldl (fun out b => ((out <<< 5) ||| b) % 2 ^ 128) 0
      = b32val 0 (l.map CROCKFORD_INV) := by
    apply foldl_wrap_eq_b32val _ 0 hcodes
    simpa using hbound
  have hcond : ¬ ((l.map CROCKFORD_INV).foldl (fun m b => m ||| b) 0 > 32
      ∨ (l.map CROCKFORD_INV).headD 0 > 7) := by
    push_neg
    constructor
    · omega
    · rw [hhead]; exact h7
  unfold decode_base32_to_u128
  rw [if_neg (by omega)]
  rw [invertChars_ok_of_valid l hval 0]
  dsimp only
  rw [if_neg hcond, hfold]

lemma decode_encode (v : Nat) (hv : v < 2 ^ 128) :
    decode_base32_to_u128 (encode_u128_to_base32 v) = .ok v := by
  have henc : encode_u128_to_base32 v = (digitsOf 26 v).map (fun d => CROCKFORD.getD d 0) :=
    encChars_eq_map 26 v
  have hd32 : ∀ d ∈ digitsOf 26 v, d < 32 := digitsOf_lt 26 v
  have hval : ∀ c ∈ encode_u128_to_base32 v, CROCKFORD_INV c ≠ 255 := by
    rw [henc]
    intro c hc
    rcases List.mem_map.mp hc with ⟨d, hd, rfl⟩
    rw [CROCKFORD_INV_getD d (hd32 d hd)]
    have := hd32 d hd
    omega
  have hlen : (encode_u128_to_base32 v).length = 26 := by
    rw [henc]; simp [digitsOf_length]
  have hmapinv : (encode_u128_to_base32 v).map CROCKFORD_INV = digitsOf 26 v := by
    rw [henc, List.map_map]
    conv_rhs => rw [← List.map_id (digitsOf 26 v)]
    apply List.map_congr_left
    intro d hd
    exact CROCKFORD_INV_getD d (hd32 d hd)
  have hhead7 : CROCKFORD_INV ((encode_u128_to_base32 v).headD 0) ≤ 7 := by
    have h1 : (encode_u128_to_base32 v).headD 0
        = CROCKFORD.getD ((digitsOf 26 v).getD 0 0) 0 := by
      rw [henc]
      cases hd : digitsOf 26 v with
      | nil => have := digitsOf_length 26 v; rw [hd] at this; simp at this
      | cons a rest => simp [hd]
    have h2 : (digitsOf 26 v).getD 0 0 = v / 32 ^ 25 % 32 :=
      digitsOf_getD 26 v 0 (by omega)
    have h3 : v / 32 ^ 25 < 8 := by
      apply Nat.div_lt_of_lt_mul
      calc v < 2 ^ 128 := hv
        _ = 32 ^ 25 * 8 := by norm_num
    have h4 : v / 32 ^ 25 % 32 = v / 32 ^ 25 := Nat.mod_eq_of_lt (by omega)
    have h5 : (digitsOf 26 v).getD 0 0 < 32 := by rw [h2, h4]; omega
    rw [h1, CROCKFORD_INV_getD _ h5, h2, h4]
    omega
  have hvlt : v % 32 ^ 26 = v := by
    apply Nat.mod_eq_of_lt
    calc v < 2 ^ 128 := hv
      _ < 32 ^ 26 := by norm_num
  rw [decode_of_valid _ hlen hval hhead7, hmapinv, b32val_digitsOf, hvlt]

lemma decode_ok_elim (l : List Nat) (v : Nat) (h : decode_base32_to_u128 l = .ok v) :
    l.length = 26 ∧ (∀ c ∈ l, CROCKFORD_INV c ≠ 255) ∧
      CROCKFORD_INV (l.headD 0) ≤ 7 ∧ v = b32val 0 (l.map CROCKFORD_INV) ∧
      v < 2 ^ 128 := by
  unfold decode_base32_to_u128 at h
  by_cases h26 : l.length = 26
  · rw [if_neg (by omega)] at h
    cases hinv : invertChars l 0 with
    | error e => rw [hinv] at h; cases h
    | ok codes =>
      rw [hinv] at h
      dsimp only at h
      obtain ⟨hmap, hall⟩ := invertChars_ok_elim l 0 codes hinv
      subst hmap
      by_cases hcond : (l.map CROCKFORD_INV).foldl (fun m b => m ||| b) 0 > 32
          ∨ (l.map CROCKFORD_INV).headD 0 > 7
      · rw [if_pos hcond] at h; cases h
      · rw [if_neg hcond] at h
        push_neg at hcond
        have hhead : (l.map CROCKFORD_INV).headD 0 = CROCKFORD_INV (l.headD 0) := by
          cases l with
          | nil => simp at h26
          | cons c rest => rfl
        have h7 : CROCKFORD_INV (l.headD 0) ≤ 7 := by rw [← hhead]; exact hcond.2
        have hcodes : ∀ c ∈ l.map CROCKFORD_INV, c < 32 := by
          intro c hc
          rcases List.mem_map.mp hc with ⟨x, hx, rfl⟩
          exact CROCKFORD_INV_lt_of_ne x (hall x hx)
        have hlen : (l.map CROCKFORD_INV).length = 26 := by simpa using h26
        have hbound : b32val 0 (l.map CROCKFORD_INV) < 2 ^ 128 :=
          b32val_head_lt _ hlen hcodes (by rw [hhead]; exact h7)
        have hfold : (l.map CROCKFORD_INV).foldl
            (fun out b => ((out <<< 5) ||| b) % 2 ^ 128) 0 = b32val 0 (l.map CROCKFORD_INV) := by
          apply foldl_wrap_eq_b32val _ 0 hcodes
          simpa using hbound
        rw [hfold] at h
        cases h
        exact ⟨h26, hall, h7, rfl, hbound⟩
  · rw [if_pos (by omega)] at h; cases h

lemma encode_decode (l : List Nat) (v : Nat) (h : decode_base32_to_u128 l = .ok v) :
    encode_u128_to_base32 v = l := by
  obtain ⟨h26, hall, _, hveq, _⟩ := decode_ok_elim l v h
  have hcodes : ∀ c ∈ l.map CROCKFORD_INV, c < 32 := by
    intro c hc
    rcases List.mem_map.mp hc with ⟨x, hx, rfl⟩
    exact CROCKFORD_INV_lt_of_ne x (hall x hx)
  have hlen : (l.map CROCKFORD_INV).length = 26 := by simpa using h26
  have hdig : digitsOf 26 (b32val 0 (l.map CROCKFORD_INV)) = l.map CROCKFORD_INV := by
    have := digitsOf_b32val (l.map CROCKFORD_INV) hcodes
    rwa [hlen] at this
  rw [encode_u128_to_base32, encChars_eq_map, hveq, hdig, List.map_map]
  conv_rhs => rw [← List.map_id l]
  apply List.map_congr_left
  intro c hc
  exact CROCKFORD_getD_INV c (hall c hc)

lemma decode_length_error (l : List Nat) (h : l.length ≠ 26) :
    decode_base32_to_u128 l = .error (.lengthMismatch l.length) := by
  unfold decode_base32_to_u128
  rw [if_pos h]

lemma decode_invalid_char_error (l : List Nat) (j : Nat) (h26 : l.length = 26)
    (hj : j < l.length) (hbad : CROCKFORD_INV (l.getD j 0) = 255)
    (hok : ∀ k < j, CROCKFORD_INV (l.getD k 0) ≠ 255) :
    decode_base32_to_u128 l = .error (.invalidChar (l.getD j 0) j) := by
  unfold decode_base32_to_u128
  rw [if_neg (by omega)]
  rw [invertChars_error_at l 0 j hj hbad hok]
  simp

lemma decode_overflow_error (l : List Nat) (h26 : l.length = 26)
    (hall : ∀ c ∈ l, CROCKFORD_INV c ≠ 255)
    (h7 : CROCKFORD_INV (l.headD 0) > 7) :
    decode_base32_to_u128 l = .error .overflow := by
  have hhead : (l.map CROCKFORD_INV).headD 0 = CROCKFORD_INV (l.headD 0) := by
    cases l with
    | nil => simp at h26
    | cons c rest => rfl
  unfold decode_base32_to_u128
  rw [if_neg (by omega)]
  rw [invertChars_ok_of_valid l hall 0]
  dsimp only
  rw [if_pos (by rw [hhead]; omega)]

/-! ### Groundwork: prefix grammar -/

/-- A byte allowed inside a prefix: `a`-`z` or `'_'`. -/
def goodPrefixChar (c : Nat) : Prop :=
  (97 ≤ c ∧ c ≤ 122) ∨ c = underscoreByte

instance (c : Nat) : Decidable (goodPrefixChar c) := by
  unfold goodPrefixChar; infer_instance

/-- The §3 prefix grammar: empty, or at most 63 bytes of lowercase letters
and underscores with neither a leading nor a trailing underscore. -/
def prefixGrammar (tag : List Nat) : Prop :=
  tag = [] ∨
    (tag.length ≤ 63 ∧ (∀ c ∈ tag, goodPrefixChar c) ∧
      tag.headD 0 ≠ underscoreByte ∧ tag.getLastD 0 ≠ underscoreByte)

instance (tag : List Nat) : Decidable (prefixGrammar tag) := by
  unfold prefixGrammar; infer_instance

/-- What each `InvalidPrefix` reason asserts about the rejected tag (the
data the source interpolates into its reason string). -/
def reasonMatches (tag : List Nat) : PrefixReason → Prop
  | .tooLong n => n = tag.length ∧ tag.length > 63
  | .leadingUnderscore => tag ≠ [] ∧ tag.headD 0 = underscoreByte
  | .trailingUnderscore => tag ≠ [] ∧ tag.getLastD 0 = underscoreByte
  | .uppercase c i => i < tag.length ∧ tag.getD i 0 = c ∧ 65 ≤ c ∧ c ≤ 90
  | .digit c i => i < tag.length ∧ tag.getD i 0 = c ∧ 48 ≤ c ∧ c ≤ 57
  | .invalidChar c i => i < tag.length ∧ tag.getD i 0 = c ∧
      ¬ goodPrefixChar c ∧ ¬ (65 ≤ c ∧ c ≤ 90) ∧ ¬ (48 ≤ c ∧ c ≤ 57)

lemma scanPrefixChars_none_iff (l : List Nat) :
    ∀ i, scanPrefixChars l i = none ↔ ∀ c ∈ l, goodPrefixChar c := by
  induction l with
  | nil => intro i; simp [scanPrefixChars]
  | cons c rest ih =>
    intro i
    by_cases hc : goodPrefixChar c
    · have hc' : (97 ≤ c ∧ c ≤ 122) ∨ c = underscoreByte := hc
      simp only [scanPrefixChars, if_pos hc']
      rw [ih (i + 1)]
      constructor
      · intro h x hx
        rcases List.mem_cons.mp hx with h' | h'
        · exact h' ▸ hc
        · exact h x h'
      · intro h x hx; exact h x (by simp [hx])
    · have hc' : ¬ ((97 ≤ c ∧ c ≤ 122) ∨ c = underscoreByte) := hc
      constructor
      · intro h
        exfalso
        rw [scanPrefixChars, if_neg hc'] at h
        by_cases hu : 65 ≤ c ∧ c ≤ 90
        · rw [if_pos hu] at h; cases h
        · rw [if_neg hu] at h
          by_cases hd : 48 ≤ c ∧ c ≤ 57
          · rw [if_pos hd] at h; cases h
          · rw [if_neg hd] at h; cases h
      · intro h
        exact absurd (h c (by simp)) hc

lemma scanPrefixChars_some_elim (l : List Nat) :
    ∀ i r, scanPrefixChars l i = some r →
      ∃ j, j < l.length ∧
        ((∃ c, r = .uppercase c (i + j) ∧ l.getD j 0 = c ∧ 65 ≤ c ∧ c ≤ 90) ∨
         (∃ c, r = .digit c (i + j) ∧ l.getD j 0 = c ∧ 48 ≤ c ∧ c ≤ 57) ∨
         (∃ c, r = .invalidChar c (i + j) ∧ l.getD j 0 = c ∧ ¬ goodPrefixChar c ∧
            ¬ (65 ≤ c ∧ c ≤ 90) ∧ ¬ (48 ≤ c ∧ c ≤ 57))) := by
  induction l with
  | nil => intro i r h; cases h
  | cons c rest ih =>
    intro i r h
    by_cases hc : (97 ≤ c ∧ c ≤ 122) ∨ c = underscoreByte
    · rw [scanPrefixChars, if_pos hc] at h
      obtain ⟨j, hj, hcase⟩ := ih (i + 1) r h
      refine ⟨j + 1, by simpa using hj, ?_⟩
      have harith : i + 1 + j = i + (j + 1) := by omega
      simpa [List.getD_cons_succ, harith] using hcase
    · rw [scanPrefixChars, if_neg hc] at h
      refine ⟨0, by simp, ?_⟩
      by_cases hu : 65 ≤ c ∧ c ≤ 90
      · rw [if_pos hu] at h
        cases h
        exact Or.inl ⟨c, by rw [Nat.add_zero], rfl, hu.1, hu.2⟩
      · rw [if_neg hu] at h
        by_cases hd : 48 ≤ c ∧ c ≤ 57
        · rw [if_pos hd] at h
          cases h
          exact Or.inr (Or.inl ⟨c, by rw [Nat.add_zero], rfl, hd.1, hd.2⟩)
        · rw [if_neg hd] at h
          cases h
          exact Or.inr (Or.inr ⟨c, by rw [Nat.add_zero], rfl, hc, hu, hd⟩)

lemma validate_prefix_ok_iff (tag : List Nat) :
    validate_prefix tag = .ok () ↔ prefixGrammar tag := by
  unfold validate_prefix
  by_cases hlen : tag.length > 63
  · rw [if_pos hlen]
    constructor
    · intro h; cases h
    · intro h
      rcases h with h | ⟨h63, _⟩
      · subst h; simp at hlen
      · omega
  · rw [if_neg hlen]
    by_cases hemp : tag.isEmpty
    · rw [if_pos hemp]
      have : tag = [] := List.isEmpty_iff.mp hemp
      simp [prefixGrammar, this]
    · rw [if_neg hemp]
      have htne : tag ≠ [] := fun h => hemp (by simp [h])
      by_cases hhd : tag.headD 0 = underscoreByte
      · rw [if_pos hhd]
        constructor
        · intro h; cases h
        · intro h
          rcases h with h | ⟨_, _, hh, _⟩
          · exact absurd h htne
          · exact absurd hhd hh
      · rw [if_neg hhd]
        by_cases hlst : tag.getLastD 0 = underscoreByte
        · rw [if_pos hlst]
          constructor
          · intro h; cases h
          · intro h
            rcases h with h | ⟨_, _, _, hl⟩
            · exact absurd h htne
            · exact absurd hlst hl
        · rw [if_neg hlst]
          cases hscan : scanPrefixChars tag 0 with
          | some r =>
            constructor
            · intro h; cases h
            · intro h
              rcases h with h | ⟨_, hall, _, _⟩
              · exact absurd h htne
              · rw [← scanPrefixChars_none_iff tag 0] at hall
                rw [hall] at hscan; cases hscan
          | none =>
            constructor
            · intro _
              refine Or.inr ⟨by omega, ?_, hhd, hlst⟩
              exact (scanPrefixChars_none_iff tag 0).mp hscan
            · intro _; rfl

lemma validate_prefix_error_elim (tag : List Nat) (e : TError)
    (h : validate_prefix tag = .error e) :
    ∃ r, e = .InvalidPrefix tag r ∧ reasonMatches tag r := by
  unfold validate_prefix at h
  by_cases hlen : tag.length > 63
  · rw [if_pos hlen] at h
    cases h
    exact ⟨.tooLong tag.length, rfl, rfl, hlen⟩
  · rw [if_neg hlen] at h
    by_cases hemp : tag.isEmpty
    · rw [if_pos hemp] at h; cases h
    · rw [if_neg hemp] at h
      have htne : tag ≠ [] := fun h' => hemp (by simp [h'])
      by_cases hhd : tag.headD 0 = underscoreByte
      · rw [if_pos hhd] at h
        cases h
        exact ⟨.leadingUnderscore, rfl, htne, hhd⟩
      · rw [if_neg hhd] at h
        by_cases hlst : tag.getLastD 0 = underscoreByte
        · rw [if_pos hlst] at h
          cases h
          exact ⟨.trailingUnderscore, rfl, htne, hlst⟩
        · rw [if_neg hlst] at h
          cases hscan : scanPrefixChars tag 0 with
          | none => rw [hscan] at h; cases h
          | some r =>
            rw [hscan] at h
            cases h
            refine ⟨r, rfl, ?_⟩
            obtain ⟨j, hj, hcase⟩ := scanPrefixChars_some_elim tag 0 r hscan
            rcases hcase with ⟨c, hr, hgd, h1, h2⟩ | ⟨c, hr, hgd, h1, h2⟩ |
                ⟨c, hr, hgd, h1, h2, h3⟩ <;>
              · subst hr
                simp only [reasonMatches, Nat.zero_add]
                exact ⟨hj, by simp_all⟩

/-! ### Groundwork: rsplitOnce -/

lemma rsplitOnce_none_iff (l : List Nat) (sep : Nat) :
    rsplitOnce l sep = none ↔ sep ∉ l := by
  induction l with
  | nil => simp [rsplitOnce]
  | cons b rest ih =>
    rw [rsplitOnce]
    cases hr : rsplitOnce rest sep with
    | some p =>
      obtain ⟨p1, p2⟩ := p
      have hmem : sep ∈ rest := by
        by_contra hn
        rw [← ih] at hn
        rw [hn] at hr; cases hr
      constructor
      · intro h; cases h
      · intro h
        exact ((h (by simp [hmem])).elim)
    | none =>
      have hrest : sep ∉ rest := ih.mp hr
      by_cases hb : b = sep
      · subst hb
        simp
      · rw [if_neg hb]
        simp only [List.mem_cons]
        constructor
        · intro _ h
          rcases h with h | h
          · exact hb h.symm
          · exact hrest h
        · intro _; trivial

lemma rsplitOnce_some_elim (l : List Nat) (sep : Nat) :
    ∀ pre suf, rsplitOnce l sep = some (pre, suf) →
      l = pre ++ sep :: suf ∧ sep ∉ suf := by
  induction l with
  | nil => intro pre suf h; cases h
  | cons b rest ih =>
    intro pre suf h
    rw [rsplitOnce] at h
    cases hr : rsplitOnce rest sep with
    | some p =>
      obtain ⟨p1, p2⟩ := p
      rw [hr] at h
      simp only [Option.some.injEq, Prod.mk.injEq] at h
      obtain ⟨h1, h2⟩ := h
      subst h1; subst h2
      obtain ⟨heq, hns⟩ := ih p1 p2 hr
      exact ⟨by rw [heq, List.cons_append], hns⟩
    | none =>
      rw [hr] at h
      by_cases hb : b = sep
      · rw [if_pos hb] at h
        simp only [Option.some.injEq, Prod.mk.injEq] at h
        obtain ⟨h1, h2⟩ := h
        subst h1; subst h2
        exact ⟨by rw [hb]; rfl, (rsplitOnce_none_iff rest sep).mp hr⟩
      · rw [if_neg hb] at h; cases h

lemma rsplitOnce_append (pre suf : List Nat) (sep : Nat) (hns : sep ∉ suf) :
    rsplitOnce (pre ++ sep :: suf) sep = some (pre, suf) := by
  induction pre with
  | nil =>
    rw [List.nil_append, rsplitOnce]
    rw [(rsplitOnce_none_iff suf sep).mpr hns]
    simp
  | cons b rest ih =>
    rw [List.cons_append, rsplitOnce, ih]

/-! ### Groundwork: the comparison order -/

lemma natCompare_swap (a b : Nat) : (compare a b).swap = compare b a := by
  rcases Nat.lt_trichotomy a b with h | h | h
  · have h1 : compare a b = .lt := Nat.compare_eq_lt.mpr h
    have h2 : compare b a = .gt := Nat.compare_eq_gt.mpr h
    rw [h1, h2]; rfl
  · subst h
    have h1 : compare a a = .eq := Nat.compare_eq_eq.mpr rfl
    rw [h1]; rfl
  · have h1 : compare a b = .gt := Nat.compare_eq_gt.mpr h
    have h2 : compare b a = .lt := Nat.compare_eq_lt.mpr h
    rw [h1, h2]; rfl

lemma bytesCmp_eq_iff (a : List Nat) : ∀ b, bytesCmp a b = .eq ↔ a = b := by
  induction a with
  | nil =>
    intro b
    cases b with
    | nil => simp [bytesCmp]
    | cons y ys => simp [bytesCmp]
  | cons x xs ih =>
    intro b
    cases b with
    | nil => simp [bytesCmp]
    | cons y ys =>
      rcases Nat.lt_trichotomy x y with h | h | h
      · have h1 : compare x y = .lt := Nat.compare_eq_lt.mpr h
        simp only [bytesCmp, h1]
        constructor
        · intro hh; cases hh
        · intro hh
          have : x = y := by injection hh
          omega
      · subst h
        have h1 : compare x x = .eq := Nat.compare_eq_eq.mpr rfl
        simp only [bytesCmp, h1]
        rw [ih ys]
        constructor
        · intro hh; rw [hh]
        · intro hh; injection hh
      · have h1 : compare x y = .gt := Nat.compare_eq_gt.mpr h
        simp only [bytesCmp, h1]
        constructor
        · intro hh; cases hh
        · intro hh
          have : x = y := by injection hh
          omega

lemma bytesCmp_swap (a : List Nat) : ∀ b, (bytesCmp a b).swap = bytesCmp b a := by
  induction a with
  | nil =>
    intro b
    cases b with
    | nil => rfl
    | cons y ys => rfl
  | cons x xs ih =>
    intro b
    cases b with
    | nil => rfl
    | cons y ys =>
      simp only [bytesCmp]
      rw [← natCompare_swap x y]
      cases compare x y with
      | lt => rfl
      | eq => exact ih ys
      | gt => rfl

lemma bytesCmp_lt_trans (a : List Nat) :
    ∀ b c, bytesCmp a b = .lt → bytesCmp b c = .lt → bytesCmp a c = .lt := by
  induction a with
  | nil =>
    intro b c hab hbc
    cases b with
    | nil => cases hab
    | cons y ys =>
      cases c with
      | nil => cases hbc
      | cons z zs => rfl
  | cons x xs ih =>
    intro b c hab hbc
    cases b with
    | nil => cases hab
    | cons y ys =>
      cases c with
      | nil => cases hbc
      | cons z zs =>
        simp only [bytesCmp] at hab hbc ⊢
        rcases Nat.lt_trichotomy x y with hxy | hxy | hxy
        · have h1 : compare x y = .lt := Nat.compare_eq_lt.mpr hxy
          rcases Nat.lt_trichotomy y z with hyz | hyz | hyz
          · have h2 : compare x z = .lt := Nat.compare_eq_lt.mpr (by omega)
            rw [h2]
          · have h2 : compare x z = .lt := Nat.compare_eq_lt.mpr (hyz ▸ hxy)
            rw [h2]
          · have h2 : compare y z = .gt := Nat.compare_eq_gt.mpr hyz
            rw [h2] at hbc; cases hbc
        · subst hxy
          rcases Nat.lt_trichotomy x z with hyz | hyz | hyz
          · have h2 : compare x z = .lt := Nat.compare_eq_lt.mpr hyz
            rw [h2]
          · subst hyz
            have h2 : compare x x = .eq := Nat.compare_eq_eq.mpr rfl
            rw [h2] at hab hbc ⊢
            exact ih ys zs hab hbc
          · have h2 : compare x z = .gt := Nat.compare_eq_gt.mpr hyz
            rw [h2] at hbc; cases hbc
        · have h1 : compare x y = .gt := Nat.compare_eq_gt.mpr hxy
          rw [h1] at hab; cases hab

lemma TypeID_cmp_eq_iff (a b : TypeID) : TypeID.cmp a b = .eq ↔ a = b := by
  obtain ⟨⟨pa⟩, ua⟩ := a
  obtain ⟨⟨pb⟩, ub⟩ := b
  unfold TypeID.cmp
  dsimp only
  rcases hp : bytesCmp pa pb with _ | _ | _
  · constructor
    · intro h; cases h
    · intro h
      injection h with h1 h2
      injection h1 with h1
      rw [(bytesCmp_eq_iff pa pb).mpr h1] at hp
      cases hp
  · rw [(bytesCmp_eq_iff pa pb).mp hp]
    constructor
    · intro h
      have := Nat.compare_eq_eq.mp h
      rw [this]
    · intro h
      injection h with h1 h2
      exact Nat.compare_eq_eq.mpr h2
  · constructor
    · intro h; cases h
    · intro h
      injection h with h1 h2
      injection h1 with h1
      rw [(bytesCmp_eq_iff pa pb).mpr h1] at hp
      cases hp

lemma TypeID_cmp_swap (a b : TypeID) : (TypeID.cmp a b).swap = TypeID.cmp b a := by
  unfold TypeID.cmp
  rw [← bytesCmp_swap a.pfx.bytes b.pfx.bytes]
  cases bytesCmp a.pfx.bytes b.pfx.bytes with
  | lt => rfl
  | eq => exact natCompare_swap a.uuid b.uuid
  | gt => rfl

lemma TypeID_cmp_lt_trans (a b c : TypeID) (hab : TypeID.cmp a b = .lt)
    (hbc : TypeID.cmp b c = .lt) : TypeID.cmp a c = .lt := by
  unfold TypeID.cmp at hab hbc ⊢
  rcases h1 : bytesCmp a.pfx.bytes b.pfx.bytes with _ | _ | _ <;>
    rcases h2 : bytesCmp b.pfx.bytes c.pfx.bytes with _ | _ | _
  · rw [bytesCmp_lt_trans _ _ _ h1 h2]
  · have hbc' : b.pfx.bytes = c.pfx.bytes := (bytesCmp_eq_iff _ _).mp h2
    rw [← hbc', h1]
  · exact absurd hbc (by simp [h2])
  · have hab' : a.pfx.bytes = b.pfx.bytes := (bytesCmp_eq_iff _ _).mp h1
    rw [hab', h2]
  · have hab' : a.pfx.bytes = b.pfx.bytes := (bytesCmp_eq_iff _ _).mp h1
    rw [hab', h2]
    have hu1 : compare a.uuid b.uuid = .lt := by
      rw [h1] at hab; exact hab
    have hu2 : compare b.uuid c.uuid = .lt := by
      rw [h2] at hbc; exact hbc
    have := Nat.compare_eq_lt.mp hu1
    have := Nat.compare_eq_lt.mp hu2
    exact Nat.compare_eq_lt.mpr (by omega)
  · exact absurd hbc (by simp [h2])
  · exact absurd hab (by simp [h1])
  · exact absurd hab (by simp [h1])
  · exact absurd hab (by simp [h1])

lemma TypeID_lt_iff (a b : TypeID) : TypeID.lt a b = true ↔ TypeID.cmp a b = .lt := by
  unfold TypeID.lt
  cases h : TypeID.cmp a b with
  | lt => exact ⟨fun _ => rfl, fun _ => rfl⟩
  | eq => exact ⟨fun hh => absurd hh (by decide), fun hh => absurd hh (by decide)⟩
  | gt => exact ⟨fun hh => absurd hh (by decide), fun hh => absurd hh (by decide)⟩

lemma TypeID_lt_false_iff (a b : TypeID) :
    TypeID.lt a b = false ↔ TypeID.cmp a b ≠ .lt := by
  rw [← Bool.not_eq_true, not_iff_not]
  exact TypeID_lt_iff a b

lemma TypeID_lt_trans (a b c : TypeID) (hab : TypeID.lt a b = true)
    (hbc : TypeID.lt b c = true) : TypeID.lt a c = true := by
  rw [TypeID_lt_iff] at *
  exact TypeID_cmp_lt_trans a b c hab hbc

lemma TypeID_not_lt_antisymm (a b : TypeID) (hab : TypeID.lt a b = false)
    (hba : TypeID.lt b a = false) : a = b := by
  rw [TypeID_lt_false_iff] at *
  rcases h : TypeID.cmp a b with _ | _ | _
  · exact absurd h hab
  · exact (TypeID_cmp_eq_iff a b).mp h
  · have := TypeID_cmp_swap a b
    rw [h] at this
    exact absurd this.symm hba

lemma TypeID_lt_asymm (a b : TypeID) (hab : TypeID.lt a b = true) :
    TypeID.lt b a = false := by
  rw [TypeID_lt_iff] at hab
  rw [TypeID_lt_false_iff]
  intro h
  have := TypeID_cmp_swap a b
  rw [hab, h] at this
  cases this

lemma TypeID_lt_irrefl (a : TypeID) : TypeID.lt a a = false := by
  rw [TypeID_lt_false_iff]
  intro h
  rw [(TypeID_cmp_eq_iff a a).mpr rfl] at h
  cases h

lemma TypeID_not_lt_trans (a b c : TypeID) (h1 : TypeID.lt a b = false)
    (h2 : TypeID.lt b c = false) : TypeID.lt a c = false := by
  rw [TypeID_lt_false_iff] at *
  intro hac
  rcases hab : TypeID.cmp a b with _ | _ | _
  · exact h1 hab
  · have : a = b := (TypeID_cmp_eq_iff a b).mp hab
    exact h2 (this ▸ hac)
  · have hba : TypeID.cmp b a = .lt := by
      have := TypeID_cmp_swap a b
      rw [hab] at this
      exact this.symm
    rcases hbc : TypeID.cmp b c with _ | _ | _
    · exact h2 hbc
    · have : b = c := (TypeID_cmp_eq_iff b c).mp hbc
      rw [← this] at hac
      rw [hab] at hac
      cases hac
    · have hcb : TypeID.cmp c b = .lt := by
        have := TypeID_cmp_swap b c
        rw [hbc] at this
        exact this.symm
      have hca : TypeID.cmp c a = .lt := TypeID_cmp_lt_trans c b a hcb hba
      have := TypeID_cmp_swap a c
      rw [hac] at this
      rw [hca] at this
      cases this

/-! ### Groundwork: min/max aggregation -/

lemma tieEq (a b : TypeID) (h1 : TypeID.lt a b = false) (h2 : TypeID.lt b a = false) :
    a = b := TypeID_not_lt_antisymm a b h1 h2

lemma bnot_true {x : Bool} (h : ¬ x = true) : x = false := by
  cases x
  · rfl
  · exact absurd rfl h

lemma minIf_comm (a b : TypeID) :
    (if TypeID.lt a b then a else b) = (if TypeID.lt b a then b else a) := by
  by_cases hab : TypeID.lt a b = true
  · rw [if_pos hab, if_neg (by simp [TypeID_lt_asymm a b hab])]
  · have hab' := bnot_true hab
    rw [if_neg hab]
    by_cases hba : TypeID.lt b a = true
    · rw [if_pos hba]
    · have hba' := bnot_true hba
      rw [if_neg hba]
      exact (tieEq a b hab' hba').symm

lemma minIf_assoc (a b c : TypeID) :
    (if TypeID.lt (if TypeID.lt a b then a else b) c then (if TypeID.lt a b then a else b) else c)
      = (if TypeID.lt a (if TypeID.lt b c then b else c) then a
          else (if TypeID.lt b c then b else c)) := by
  by_cases hab : TypeID.lt a b = true
  · rw [if_pos hab]
    by_cases hbc : TypeID.lt b c = true
    · have hac : TypeID.lt a c = true := TypeID_lt_trans a b c hab hbc
      rw [if_pos hbc, if_pos hac, if_pos hab]
    · rw [if_neg hbc]
  · have hab' := bnot_true hab
    rw [if_neg hab]
    by_cases hbc : TypeID.lt b c = true
    · rw [if_pos hbc, if_neg hab]
    · have hbc' := bnot_true hbc
      have hac' : TypeID.lt a c = false := TypeID_not_lt_trans a b c hab' hbc'
      rw [if_neg hbc, if_neg (by simp [hac'])]

lemma minState_eq_combine (s : Option TypeID) (a : TypeID) :
    minState s a = minCombine s (some a) := by
  cases s with
  | none => rfl
  | some c =>
    simp only [minState, minCombine]
    rw [minIf_comm a c]

lemma minCombine_none_right (s : Option TypeID) : minCombine s none = s := by
  cases s <;> rfl

lemma minCombine_none_left (s : Option TypeID) : minCombine none s = s := by
  cases s <;> rfl

lemma minCombine_comm (x y : Option TypeID) : minCombine x y = minCombine y x := by
  cases x with
  | none => rw [minCombine_none_left, minCombine_none_right]
  | some a =>
    cases y with
    | none => rfl
    | some b =>
      simp only [minCombine]
      rw [minIf_comm a b]

lemma minCombine_assoc (x y z : Option TypeID) :
    minCombine (minCombine x y) z = minCombine x (minCombine y z) := by
  cases x with
  | none => rw [minCombine_none_left, minCombine_none_left]
  | some a =>
    cases y with
    | none => rw [minCombine_none_right, minCombine_none_left]
    | some b =>
      cases z with
      | none => rw [minCombine_none_right, minCombine_none_right]
      | some c =>
        simp only [minCombine]
        rw [minIf_assoc a b c]

lemma foldl_minState_combine (l : List TypeID) :
    ∀ s, List.foldl minState s l = minCombine s (List.foldl minState none l) := by
  induction l with
  | nil => intro s; rw [List.foldl_nil, List.foldl_nil, minCombine_none_right]
  | cons a l ih =>
    intro s
    rw [List.foldl_cons, List.foldl_cons, ih (minState s a), ih (minState none a)]
    rw [minState_eq_combine s a, minState_eq_combine none a, minCombine_none_left]
    rw [minCombine_assoc]

lemma foldl_minState_mem (l : List TypeID) :
    ∀ s t, List.foldl minState s l = some t →
      ((t ∈ l ∨ s = some t) ∧ (∀ u ∈ l, TypeID.lt u t = false) ∧
        (∀ c, s = some c → TypeID.lt c t = false)) := by
  induction l with
  | nil =>
    intro s t h
    rw [List.foldl_nil] at h
    refine ⟨Or.inr h, by simp, ?_⟩
    intro c hc
    rw [hc] at h
    injection h with h
    rw [h]
    exact TypeID_lt_irrefl t
  | cons a l ih =>
    intro s t h
    rw [List.foldl_cons] at h
    obtain ⟨hmem, hall, hacc⟩ := ih (minState s a) t h
    have hstate : ∀ c, minState s a = some c → TypeID.lt c t = false := hacc
    have haf : TypeID.lt a t = false := by
      cases s with
      | none => exact hstate a rfl
      | some c =>
        simp only [minState] at hstate
        cases hlt : TypeID.lt a c with
        | true => exact hstate a (by rw [hlt]; simp)
        | false =>
          have hct : TypeID.lt c t = false := hstate c (by rw [hlt]; simp)
          exact TypeID_not_lt_trans a c t hlt hct
    refine ⟨?_, ?_, ?_⟩
    · rcases hmem with h' | h'
      · exact Or.inl (by simp [h'])
      · cases s with
        | none =>
          simp only [minState] at h'
          injection h' with h'
          exact Or.inl (by simp [h'])
        | some c =>
          simp only [minState] at h'
          injection h' with h'
          cases hlt : TypeID.lt a c with
          | true => rw [if_pos (by rw [hlt])] at h'; exact Or.inl (by simp [h'])
          | false => rw [if_neg (by rw [hlt]; simp)] at h'; exact Or.inr (by rw [h'])
    · intro u hu
      rcases List.mem_cons.mp hu with h' | h'
      · rw [h']; exact haf
      · exact hall u h'
    · intro c hc
      subst hc
      simp only [minState] at hstate
      cases hlt : TypeID.lt a c with
      | true =>
        cases hy : TypeID.lt c t with
        | false => rfl
        | true =>
          have hat : TypeID.lt a t = true := TypeID_lt_trans a c t hlt hy
          rw [haf] at hat
          cases hat
      | false =>
        exact hstate c (by rw [hlt]; simp)

lemma maxIf_comm (x y : TypeID) :
    (if TypeID.lt y x then x else y) = (if TypeID.lt x y then y else x) := by
  by_cases hyx : TypeID.lt y x = true
  · rw [if_pos hyx, if_neg (by simp [TypeID_lt_asymm y x hyx])]
  · have hyx' := bnot_true hyx
    rw [if_neg hyx]
    by_cases hxy : TypeID.lt x y = true
    · rw [if_pos hxy]
    · have hxy' := bnot_true hxy
      rw [if_neg hxy]
      exact tieEq y x hyx' hxy'

lemma maxIf_assoc (a b c : TypeID) :
    (if TypeID.lt c (if TypeID.lt b a then a else b) then (if TypeID.lt b a then a else b) else c)
      = (if TypeID.lt (if TypeID.lt c b then b else c) a then a
          else (if TypeID.lt c b then b else c)) := by
  by_cases hba : TypeID.lt b a = true
  · rw [if_pos hba]
    by_cases hcb : TypeID.lt c b = true
    · have hca : TypeID.lt c a = true := TypeID_lt_trans c b a hcb hba
      rw [if_pos hcb, if_pos hca, if_pos hba]
    · rw [if_neg hcb]
  · have hba' := bnot_true hba
    rw [if_neg hba]
    by_cases hcb : TypeID.lt c b = true
    · rw [if_pos hcb, if_neg hba]
    · have hcb' := bnot_true hcb
      have hca' : TypeID.lt c a = false := TypeID_not_lt_trans c b a hcb' hba'
      rw [if_neg hcb, if_neg (by simp [hca'])]

lemma maxState_eq_combine (s : Option TypeID) (a : TypeID) :
    maxState s a = maxCombine s (some a) := by
  cases s with
  | none => rfl
  | some c =>
    simp only [maxState, maxCombine]
    rw [maxIf_comm a c]

lemma maxCombine_none_right (s : Option TypeID) : maxCombine s none = s := by
  cases s <;> rfl

lemma maxCombine_none_left (s : Option TypeID) : maxCombine none s = s := by
  cases s <;> rfl

lemma maxCombine_comm (x y : Option TypeID) : maxCombine x y = maxCombine y x := by
  cases x with
  | none => rw [maxCombine_none_left, maxCombine_none_right]
  | some a =>
    cases y with
    | none => rfl
    | some b =>
      simp only [maxCombine]
      rw [maxIf_comm a b]

lemma maxCombine_assoc (x y z : Option TypeID) :
    maxCombine (maxCombine x y) z = maxCombine x (maxCombine y z) := by
  cases x with
  | none => rw [maxCombine_none_left, maxCombine_none_left]
  | some a =>
    cases y with
    | none => rw [maxCombine_none_right, maxCombine_none_left]
    | some b =>
      cases z with
      | none => rw [maxCombine_none_right, maxCombine_none_right]
      | some c =>
        simp only [maxCombine]
        rw [maxIf_assoc a b c]

lemma foldl_maxState_combine (l : List TypeID) :
    ∀ s, List.foldl maxState s l = maxCombine s (List.foldl maxState none l) := by
  induction l with
  | nil => intro s; rw [List.foldl_nil, List.foldl_nil, maxCombine_none_right]
  | cons a l ih =>
    intro s
    rw [List.foldl_cons, List.foldl_cons, ih (maxState s a), ih (maxState none a)]
    rw [maxState_eq_combine s a, maxState_eq_combine none a, maxCombine_none_left]
    rw [maxCombine_assoc]

lemma foldl_maxState_mem (l : List TypeID) :
    ∀ s t, List.foldl maxState s l = some t →
      ((t ∈ l ∨ s = some t) ∧ (∀ u ∈ l, TypeID.lt t u = false) ∧
        (∀ c, s = some c → TypeID.lt t c = false)) := by
  induction l with
  | nil =>
    intro s t h
    rw [List.foldl_nil] at h
    refine ⟨Or.inr h, by simp, ?_⟩
    intro c hc
    rw [hc] at h
    injection h with h
    rw [h]
    exact TypeID_lt_irrefl t
  | cons a l ih =>
    intro s t h
    rw [List.foldl_cons] at h
    obtain ⟨hmem, hall, hacc⟩ := ih (maxState s a) t h
    have hstate : ∀ c, maxState s a = some c → TypeID.lt t c = false := hacc
    have haf : TypeID.lt t a = false := by
      cases s with
      | none => exact hstate a rfl
      | some c =>
        simp only [maxState] at hstate
        cases hlt : TypeID.lt c a with
        | true => exact hstate a (by rw [hlt]; simp)
        | false =>
          have hct : TypeID.lt t c = false := hstate c (by rw [hlt]; simp)
          exact TypeID_not_lt_trans t c a hct hlt
    refine ⟨?_, ?_, ?_⟩
    · rcases hmem with h' | h'
      · exact Or.inl (by simp [h'])
      · cases s with
        | none =>
          simp only [maxState] at h'
          injection h' with h'
          exact Or.inl (by simp [h'])
        | some c =>
          simp only [maxState] at h'
          injection h' with h'
          cases hlt : TypeID.lt c a with
          | true => rw [if_pos (by rw [hlt])] at h'; exact Or.inl (by simp [h'])
          | false => rw [if_neg (by rw [hlt]; simp)] at h'; exact Or.inr (by rw [h'])
    · intro u hu
      rcases List.mem_cons.mp hu with h' | h'
      · rw [h']; exact haf
      · exact hall u h'
    · intro c hc
      subst hc
      simp only [maxState] at hstate
      cases hlt : TypeID.lt c a with
      | true =>
        cases hy : TypeID.lt t c with
        | false => rfl
        | true =>
          have hat : TypeID.lt t a = true := TypeID_lt_trans t c a hy hlt
          rw [haf] at hat
          cases hat
      | false =>
        exact hstate c (by rw [hlt]; simp)

/-! ### Groundwork: from_string / toString round trip -/

lemma encode_length (v : Nat) : (encode_u128_to_base32 v).length = 26 := by
  rw [encode_u128_to_base32, encChars_eq_map]
  simp [digitsOf_length]

lemma underscore_not_in_encode (v : Nat) :
    underscoreByte ∉ encode_u128_to_base32 v := by
  rw [encode_u128_to_base32, encChars_eq_map]
  intro hmem
  rcases List.mem_map.mp hmem with ⟨d, hd, heq⟩
  have hd32 : d < 32 := digitsOf_lt 26 v d hd
  have : CROCKFORD.getD d 0 ∈ CROCKFORD := CROCKFORD_getD_mem d hd32
  rw [heq] at this
  have : underscoreByte ∉ CROCKFORD := by decide
  exact this (heq ▸ CROCKFORD_getD_mem d hd32)

lemma TypeIDPrefix_new_ok_elim (tag : List Nat) (p : TypeIDPrefix)
    (h : TypeIDPrefix.new tag = .ok p) :
    p = ⟨tag⟩ ∧ validate_prefix tag = .ok () := by
  unfold TypeIDPrefix.new at h
  cases hv : validate_prefix tag with
  | error e => rw [hv] at h; cases h
  | ok u =>
    cases u
    rw [hv] at h
    injection h with h
    exact ⟨h.symm, rfl⟩

lemma fromParts_ok_elim (tag suffix : List Nat) (t : TypeID)
    (h : fromParts tag suffix = .ok t) :
    t.pfx.bytes = tag ∧ decode_base32_to_u128 suffix = .ok t.uuid ∧
      validate_prefix tag = .ok () ∧ suffix.length = 26 := by
  unfold fromParts at h
  by_cases h26 : suffix.length = 26
  · rw [if_neg (by omega)] at h
    cases hdec : decode_base32_to_u128 suffix with
    | error e => rw [hdec] at h; cases h
    | ok u =>
      rw [hdec] at h
      cases hnew : TypeIDPrefix.new tag with
      | error e => rw [hnew] at h; cases h
      | ok p =>
        rw [hnew] at h
        injection h with h
        obtain ⟨hp, hval⟩ := TypeIDPrefix_new_ok_elim tag p hnew
        subst hp
        subst h
        exact ⟨rfl, rfl, hval, h26⟩
  · rw [if_pos (by omega)] at h
    cases h

lemma fromParts_of_valid (tag : List Nat) (v : Nat)
    (hval : validate_prefix tag = .ok ()) (hv : v < 2 ^ 128) :
    fromParts tag (encode_u128_to_base32 v) = .ok ⟨⟨tag⟩, v⟩ := by
  unfold fromParts
  rw [if_neg (by rw [encode_length]; omega)]
  rw [decode_encode v hv]
  unfold TypeIDPrefix.new
  rw [hval]

lemma from_string_toString (p : List Nat) (v : Nat)
    (hp : validate_prefix p = .ok ()) (hv : v < 2 ^ 128)
    (hlen : (TypeID.toString ⟨⟨p⟩, v⟩).length ≤ 89) :
    TypeID.from_string (TypeID.toString ⟨⟨p⟩, v⟩) = .ok ⟨⟨p⟩, v⟩ := by
  cases p with
  | nil =>
    have hts : TypeID.toString ⟨⟨[]⟩, v⟩ = encode_u128_to_base32 v := by
      unfold TypeID.toString
      rw [if_pos (by simp)]
    rw [hts]
    unfold TypeID.from_string
    rw [if_neg (by rw [encode_length]; omega)]
    rw [(rsplitOnce_none_iff _ _).mpr (underscore_not_in_encode v)]
    exact fromParts_of_valid [] v hp hv
  | cons b p' =>
    have hts : TypeID.toString ⟨⟨b :: p'⟩, v⟩
        = (b :: p') ++ underscoreByte :: encode_u128_to_base32 v := by
      unfold TypeID.toString
      rw [if_neg (by simp)]
    rw [hts] at hlen ⊢
    unfold TypeID.from_string
    rw [if_neg (by omega)]
    rw [rsplitOnce_append (b :: p') _ _ (underscore_not_in_encode v)]
    exact fromParts_of_valid (b :: p') v hp hv

lemma toString_from_string (s : List Nat) (t : TypeID)
    (h : TypeID.from_string s = .ok t) : TypeID.toString t = s := by
  unfold TypeID.from_string at h
  by_cases hlen : s.length > 89
  · rw [if_pos hlen] at h; cases h
  · rw [if_neg hlen] at h
    cases hsplit : rsplitOnce s underscoreByte with
    | none =>
      rw [hsplit] at h
      obtain ⟨hpfx, hdec, hval, h26⟩ := fromParts_ok_elim [] s t h
      have henc : encode_u128_to_base32 t.uuid = s := encode_decode s t.uuid hdec
      unfold TypeID.toString
      rw [if_pos (by rw [hpfx]; rfl), henc]
    | some pr =>
      obtain ⟨pre, suf⟩ := pr
      rw [hsplit] at h
      cases pre with
      | nil => cases h
      | cons b pre' =>
        obtain ⟨hpfx, hdec, hval, h26⟩ := fromParts_ok_elim (b :: pre') suf t h
        have henc : encode_u128_to_base32 t.uuid = suf := encode_decode suf t.uuid hdec
        obtain ⟨hs, hns⟩ := rsplitOnce_some_elim s underscoreByte (b :: pre') suf hsplit
        unfold TypeID.toString
        rw [if_neg (by rw [hpfx]; simp), hpfx, henc, hs]


lemma TypeIDPrefix_new_error_elim (tag : List Nat) (e : TError)
    (h : TypeIDPrefix.new tag = .error e) :
    ∃ r, e = .InvalidPrefix tag r ∧ reasonMatches tag r := by
  unfold TypeIDPrefix.new at h
  cases hv : validate_prefix tag with
  | error e' =>
    rw [hv] at h
    injection h with h
    subst h
    exact validate_prefix_error_elim tag e' hv
  | ok u => rw [hv] at h; cases h

lemma fromParts_no_TooLong (tag suffix : List Nat) :
    fromParts tag suffix ≠ .error .TooLong := by
  unfold fromParts
  by_cases h26 : suffix.length = 26
  · rw [if_neg (by omega)]
    cases hdec : decode_base32_to_u128 suffix with
    | error e =>
      intro h
      injection h with h
      cases h
    | ok u =>
      cases hnew : TypeIDPrefix.new tag with
      | error e =>
        obtain ⟨r, hr, _⟩ := TypeIDPrefix_new_error_elim tag e hnew
        subst hr
        intro h
        injection h with h
        cases h
      | ok p =>
        intro h
        cases h
  · rw [if_pos (by omega)]
    intro h
    injection h with h
    cases h

lemma from_string_ok_validate (s : List Nat) (t : TypeID)
    (h : TypeID.from_string s = .ok t) :
    validate_prefix t.pfx.bytes = .ok () := by
  unfold TypeID.from_string at h
  by_cases hlen : s.length > 89
  · rw [if_pos hlen] at h; cases h
  · rw [if_neg hlen] at h
    cases hsplit : rsplitOnce s underscoreByte with
    | none =>
      rw [hsplit] at h
      obtain ⟨hp, _, hval, _⟩ := fromParts_ok_elim [] s t h
      rw [hp]; exact hval
    | some pr =>
      obtain ⟨pre, suf⟩ := pr
      rw [hsplit] at h
      cases pre with
      | nil => cases h
      | cons b pre' =>
        obtain ⟨hp, _, hval, _⟩ := fromParts_ok_elim (b :: pre') suf t h
        rw [hp]; exact hval

lemma foldl_minState_isSome (l : List TypeID) :
    ∀ c, ∃ t, List.foldl minState (some c) l = some t := by
  induction l with
  | nil => intro c; exact ⟨c, rfl⟩
  | cons a l ih =>
    intro c
    rw [List.foldl_cons]
    exact ih _

lemma foldl_maxState_isSome (l : List TypeID) :
    ∀ c, ∃ t, List.foldl maxState (some c) l = some t := by
  induction l with
  | nil => intro c; exact ⟨c, rfl⟩
  | cons a l ih =>
    intro c
    rw [List.foldl_cons]
    exact ih _

/-! ### Claim theorems -/

/-- C1 (counterexample): the round-trip law `from_string(to_string(x)) == x`
fails at the valid TypeID whose prefix is 63 letters `a` and whose value is
0: its prefix validates and its value is a 128-bit quantity, yet its
canonical form is 90 characters long, so `from_string` rejects it with
`TooLong` instead of returning it. -/
theorem C1_roundtrip_counterexample :
    validate_prefix (List.replicate 63 97) = .ok () ∧
    (0 : Nat) < 2 ^ 128 ∧
    TypeID.from_string (TypeID.toString ⟨⟨List.replicate 63 97⟩, 0⟩)
      = .error .TooLong ∧
    TypeID.from_string (TypeID.toString ⟨⟨List.replicate 63 97⟩, 0⟩)
      ≠ .ok ⟨⟨List.replicate 63 97⟩, 0⟩ := by
  have hTL : TypeID.from_string (TypeID.toString ⟨⟨List.replicate 63 97⟩, 0⟩)
      = .error .TooLong := by rfl
  refine ⟨by rfl, by norm_num, hTL, ?_⟩
  intro h
  rw [hTL] at h
  cases h

/-- C1 (amended): the parse-then-render direction holds for every string
that parses, and the render-then-parse direction holds for every valid
TypeID whose canonical form fits the 89-byte parser bound (equivalently,
whose prefix is shorter than 63 bytes, or empty). -/
theorem C1_roundtrip_amended :
    (∀ (p : List Nat) (v : Nat), validate_prefix p = .ok () → v < 2 ^ 128 →
      (TypeID.toString ⟨⟨p⟩, v⟩).length ≤ 89 →
      TypeID.from_string (TypeID.toString ⟨⟨p⟩, v⟩) = .ok ⟨⟨p⟩, v⟩) ∧
    (∀ (s : List Nat) (t : TypeID), TypeID.from_string s = .ok t →
      TypeID.toString t = s) :=
  ⟨from_string_toString, toString_from_string⟩

/-- C1 (witness): the amended law evaluated on the prefix `user` with
value 5. -/
theorem C1_roundtrip_amended_witness :
    TypeID.from_string (TypeID.toString ⟨⟨[117, 115, 101, 114]⟩, 5⟩)
      = .ok ⟨⟨[117, 115, 101, 114]⟩, 5⟩ :=
  C1_roundtrip_amended.1 [117, 115, 101, 114] 5 (by rfl) (by norm_num) (by decide)

/-- C2: the codec round-trips every 128-bit value, and `encode` is a total
function emitting exactly 26 symbols of the Crockford alphabet,
most-significant 5-bit group first (position `i` carries bits
`(v / 32 ^ (25 - i)) % 32`). -/
theorem C2_codec_roundtrip (v : Nat) (hv : v < 2 ^ 128) :
    decode_base32_to_u128 (encode_u128_to_base32 v) = .ok v ∧
    (encode_u128_to_base32 v).length = 26 ∧
    (∀ c ∈ encode_u128_to_base32 v, c ∈ CROCKFORD) ∧
    (∀ i, i < 26 → (encode_u128_to_base32 v).getD i 0
        = CROCKFORD.getD (v / 32 ^ (25 - i) % 32) 0) := by
  refine ⟨decode_encode v hv, encode_length v, ?_, ?_⟩
  · intro c hc
    rw [encode_u128_to_base32, encChars_eq_map] at hc
    rcases List.mem_map.mp hc with ⟨d, hd, rfl⟩
    exact CROCKFORD_getD_mem d (digitsOf_lt 26 v d hd)
  · intro i hi
    rw [encode_u128_to_base32, encChars_eq_map]
    have hlen : (digitsOf 26 v).length = 26 := digitsOf_length 26 v
    have hi' : i < (digitsOf 26 v).length := by omega
    have hmap : i < ((digitsOf 26 v).map (fun d => CROCKFORD.getD d 0)).length := by
      simpa using hi'
    rw [List.getD_eq_getElem _ _ hmap, List.getElem_map,
      ← List.getD_eq_getElem _ 0 hi', digitsOf_getD 26 v i hi]

/-- C2 (witness): the round-trip evaluated at a concrete value. -/
theorem C2_codec_roundtrip_witness :
    decode_base32_to_u128 (encode_u128_to_base32 123456789) = .ok 123456789 :=
  (C2_codec_roundtrip 123456789 (by norm_num)).1

/-- C3: `TypeIDPrefix::new` succeeds exactly on tags satisfying the prefix
grammar (empty, or at most 63 bytes of `a`-`z`/`_` with no leading or
trailing underscore), and every failure is an `InvalidPrefix` error whose
reason accurately names the specific violation. -/
theorem C3_prefix_grammar (tag : List Nat) :
    (TypeIDPrefix.new tag = .ok ⟨tag⟩ ↔ prefixGrammar tag) ∧
    (∀ e, TypeIDPrefix.new tag = .error e →
      ∃ r, e = .InvalidPrefix tag r ∧ reasonMatches tag r) := by
  constructor
  · constructor
    · intro h
      obtain ⟨_, hval⟩ := TypeIDPrefix_new_ok_elim tag _ h
      exact (validate_prefix_ok_iff tag).mp hval
    · intro hg
      have hval := (validate_prefix_ok_iff tag).mpr hg
      unfold TypeIDPrefix.new
      rw [hval]
  · exact TypeIDPrefix_new_error_elim tag

/-- C3 (witness): `_x` is rejected with the leading-underscore reason. -/
theorem C3_prefix_grammar_witness :
    ∃ r, TError.InvalidPrefix [95, 120] PrefixReason.leadingUnderscore
      = .InvalidPrefix [95, 120] r ∧ reasonMatches [95, 120] r :=
  (C3_prefix_grammar [95, 120]).2 (.InvalidPrefix [95, 120] .leadingUnderscore) (by rfl)

/-- C4: `decode` fails with the length error exactly off 26 characters,
with the invalid-character error (naming the offending byte and its
position) at the first byte outside the alphabet, and with the overflow
error when all bytes are valid but the first symbol's code exceeds 7; on
every other 26-character input it succeeds with the value obtained by
shifting in each symbol's 5-bit code most-significant first.  A byte maps
to the sentinel 255 exactly when it is outside the 32-symbol alphabet, and
every failure falls in one of the three cases. -/
theorem C4_decode_failures (l : List Nat) :
    (∀ c, CROCKFORD_INV c = 255 ↔ c ∉ CROCKFORD) ∧
    (l.length ≠ 26 → decode_base32_to_u128 l = .error (.lengthMismatch l.length)) ∧
    (∀ j, l.length = 26 → j < l.length → CROCKFORD_INV (l.getD j 0) = 255 →
      (∀ k < j, CROCKFORD_INV (l.getD k 0) ≠ 255) →
      decode_base32_to_u128 l = .error (.invalidChar (l.getD j 0) j)) ∧
    (l.length = 26 → (∀ c ∈ l, CROCKFORD_INV c ≠ 255) →
      CROCKFORD_INV (l.headD 0) > 7 →
      decode_base32_to_u128 l = .error .overflow) ∧
    (l.length = 26 → (∀ c ∈ l, CROCKFORD_INV c ≠ 255) →
      CROCKFORD_INV (l.headD 0) ≤ 7 →
      decode_base32_to_u128 l
        = .ok (l.foldl (fun acc c => acc * 32 + CROCKFORD_INV c) 0)) ∧
    (∀ e, decode_base32_to_u128 l = .error e →
      l.length ≠ 26 ∨ (∃ c ∈ l, CROCKFORD_INV c = 255) ∨
        CROCKFORD_INV (l.headD 0) > 7) := by
  refine ⟨?_, decode_length_error l, ?_, decode_overflow_error l, ?_, ?_⟩
  · intro c
    constructor
    · intro h hmem
      have := CROCKFORD_INV_ne_of_mem c hmem
      exact this h
    · exact CROCKFORD_INV_eq_255_of_not_mem c
  · intro j h26 hj hbad hok
    exact decode_invalid_char_error l j h26 hj hbad hok
  · intro h26 hall h7
    rw [decode_of_valid l h26 hall h7]
    rw [b32val, List.foldl_map]
  · intro e he
    by_contra hx
    push_neg at hx
    obtain ⟨h26, hval, h7⟩ := hx
    have hall : ∀ c ∈ l, CROCKFORD_INV c ≠ 255 := by
      intro c hc
      exact hval c hc
    rw [decode_of_valid l h26 hall (by omega)] at he
    cases he

/-- C4 (witness): a 26-character string led by the symbol `8` (code 8 > 7)
is rejected as overflow. -/
theorem C4_decode_failures_witness :
    decode_base32_to_u128 (56 :: List.replicate 25 48) = .error .overflow :=
  (C4_decode_failures (56 :: List.replicate 25 48)).2.2.2.1 (by decide)
    (by decide) (by decide)

/-- C5: `from_string` splits at the last underscore — with no underscore
the whole input is the suffix and the prefix is empty, with a non-empty
part before the last underscore that part is the prefix and the rest the
suffix, and with an empty part before the last underscore (input starting
with `_`) it fails with `InvalidFormat`. -/
theorem C5_split_rule :
    (∀ l : List Nat, l.length ≤ 89 → underscoreByte ∉ l →
      TypeID.from_string l = fromParts [] l) ∧
    (∀ pre suf : List Nat, (pre ++ underscoreByte :: suf).length ≤ 89 →
      underscoreByte ∉ suf → pre ≠ [] →
      TypeID.from_string (pre ++ underscoreByte :: suf) = fromParts pre suf) ∧
    (∀ suf : List Nat, (underscoreByte :: suf).length ≤ 89 →
      underscoreByte ∉ suf →
      TypeID.from_string (underscoreByte :: suf) = .error .InvalidFormat) := by
  refine ⟨?_, ?_, ?_⟩
  · intro l hlen hns
    unfold TypeID.from_string
    rw [if_neg (by omega)]
    rw [(rsplitOnce_none_iff l underscoreByte).mpr hns]
  · intro pre suf hlen hns hne
    unfold TypeID.from_string
    rw [if_neg (by omega)]
    rw [rsplitOnce_append pre suf underscoreByte hns]
    cases pre with
    | nil => exact absurd rfl hne
    | cons b pre' => rfl
  · intro suf hlen hns
    unfold TypeID.from_string
    rw [if_neg (by omega)]
    have : ([] : List Nat) ++ underscoreByte :: suf = underscoreByte :: suf := rfl
    rw [← this, rsplitOnce_append [] suf underscoreByte hns]

/-- C5 (witness): an input of `_` followed by 26 zeros fails with
`InvalidFormat`. -/
theorem C5_split_rule_witness :
    TypeID.from_string (underscoreByte :: List.replicate 26 48)
      = .error .InvalidFormat :=
  C5_split_rule.2.2 (List.replicate 26 48) (by decide) (by decide)

/-- C6: `from_string` returns `TooLong` exactly on inputs longer than 89
bytes; since the length test is the first step, any longer input yields
`TooLong` regardless of its other defects, and no input of 89 bytes or
fewer can ever produce `TooLong`. -/
theorem C6_too_long (id : List Nat) :
    TypeID.from_string id = .error .TooLong ↔ id.length > 89 := by
  constructor
  · intro h
    by_contra hlen
    unfold TypeID.from_string at h
    rw [if_neg hlen] at h
    cases hsplit : rsplitOnce id underscoreByte with
    | none =>
      rw [hsplit] at h
      exact fromParts_no_TooLong [] id h
    | some pr =>
      obtain ⟨pre, suf⟩ := pr
      rw [hsplit] at h
      cases pre with
      | nil =>
        injection h with h
        cases h
      | cons b pre' =>
        exact fromParts_no_TooLong (b :: pre') suf h
  · intro h
    unfold TypeID.from_string
    rw [if_pos h]

/-- C7 (counterexample): no 32-bit hash of the hasher input stream (the
prefix bytes paired with the 128-bit value, exactly what `Hash for TypeID`
feeds the hasher) can satisfy `compare(a,b) == 0 ⟺ hash(a) == hash(b)`:
by pigeonhole over the 2^32 + 1 TypeIDs with empty prefix and values
0..2^32, two distinct ones must collide. -/
theorem C7_hash_counterexample :
    ¬ ∃ H : List Nat × Nat → Fin 4294967296,
      ∀ a b : TypeID,
        (TypeID.cmp a b = .eq ↔ H (hashInput a) = H (hashInput b)) := by
  rintro ⟨H, hH⟩
  have hcard : Fintype.card (Fin 4294967296) < Fintype.card (Fin 4294967297) := by
    simp only [Fintype.card_fin]
    omega
  obtain ⟨i, j, hne, hfe⟩ := Fintype.exists_ne_map_eq_of_card_lt
    (fun i : Fin 4294967297 => H (hashInput ⟨⟨[]⟩, i.val⟩)) hcard
  have hcmp := (hH ⟨⟨[]⟩, i.val⟩ ⟨⟨[]⟩, j.val⟩).mpr hfe
  have heq := (TypeID_cmp_eq_iff _ _).mp hcmp
  have hval : i.val = j.val := congrArg TypeID.uuid heq
  exact hne (Fin.ext hval)

/-- C7 (amended): equal under `compare` does imply equal hash: the hasher
input is a function of exactly the (prefix bytes, value) pair, compare
equality coincides with equality of that pair, and the hash is a fixed
seed-free function of the input stream, so it is stable for a given pair. -/
theorem C7_hash_amended (H : List Nat × Nat → Fin 4294967296) (a b : TypeID)
    (h : TypeID.cmp a b = .eq) : H (hashInput a) = H (hashInput b) := by
  rw [(TypeID_cmp_eq_iff a b).mp h]

/-- C7 (witness): the amended implication evaluated at a concrete hash
function and a concrete pair of equal TypeIDs. -/
theorem C7_hash_amended_witness :
    (fun p : List Nat × Nat => (Fin.ofNat p.2 : Fin 4294967296)) (hashInput ⟨⟨[117]⟩, 7⟩)
      = (fun p : List Nat × Nat => (Fin.ofNat p.2 : Fin 4294967296))
          (hashInput ⟨⟨[117]⟩, 7⟩) :=
  C7_hash_amended (fun p : List Nat × Nat => (Fin.ofNat p.2 : Fin 4294967296))
    ⟨⟨[117]⟩, 7⟩ ⟨⟨[117]⟩, 7⟩ (by rfl)

/-- C8: `compare` orders by prefix first (byte-wise) and then by the value
as an unsigned 128-bit integer, and it is a total order: zero exactly on
equal TypeIDs, antisymmetric (swapping the arguments swaps the result),
and transitive. -/
theorem C8_total_order (a b c : TypeID) :
    (TypeID.cmp a b = .eq ↔ a = b) ∧
    ((TypeID.cmp a b).swap = TypeID.cmp b a) ∧
    (TypeID.cmp a b = .lt → TypeID.cmp b c = .lt → TypeID.cmp a c = .lt) ∧
    (bytesCmp a.pfx.bytes b.pfx.bytes ≠ .eq →
      TypeID.cmp a b = bytesCmp a.pfx.bytes b.pfx.bytes) ∧
    (bytesCmp a.pfx.bytes b.pfx.bytes = .eq →
      TypeID.cmp a b = compare a.uuid b.uuid) := by
  refine ⟨TypeID_cmp_eq_iff a b, TypeID_cmp_swap a b, TypeID_cmp_lt_trans a b c, ?_, ?_⟩
  · intro hne
    unfold TypeID.cmp
    cases h : bytesCmp a.pfx.bytes b.pfx.bytes with
    | lt => rfl
    | eq => exact absurd h hne
    | gt => rfl
  · intro heq
    unfold TypeID.cmp
    rw [heq]

/-- C8 (witness): transitivity evaluated on three concrete TypeIDs. -/
theorem C8_total_order_witness :
    TypeID.cmp ⟨⟨[]⟩, 0⟩ ⟨⟨[]⟩, 2⟩ = .lt :=
  (C8_total_order ⟨⟨[]⟩, 0⟩ ⟨⟨[]⟩, 1⟩ ⟨⟨[]⟩, 2⟩).2.2.1 (by rfl) (by rfl)

/-- C9: for both aggregates, `combine` is associative and commutative with
the absent state as identity, the empty input folds to `none`, a non-empty
input folds to `some`, combining the folds of two parts equals the fold of
their concatenation (so any partition of a multiset reduces to the same
result as a single sequential fold), and the fold's result is an element of
the input that no other element beats under `compare`. -/
theorem C9_aggregate (l1 l2 : List TypeID) (x y z : Option TypeID) :
    (minCombine (minCombine x y) z = minCombine x (minCombine y z)) ∧
    (minCombine x y = minCombine y x) ∧
    (minCombine none x = x ∧ minCombine x none = x) ∧
    (List.foldl minState none ([] : List TypeID) = none) ∧
    (l1 ≠ [] → ∃ t, List.foldl minState none l1 = some t) ∧
    (minCombine (List.foldl minState none l1) (List.foldl minState none l2)
      = List.foldl minState none (l1 ++ l2)) ∧
    (∀ t, List.foldl minState none l1 = some t →
      t ∈ l1 ∧ ∀ u ∈ l1, TypeID.lt u t = false) ∧
    (maxCombine (maxCombine x y) z = maxCombine x (maxCombine y z)) ∧
    (maxCombine x y = maxCombine y x) ∧
    (maxCombine none x = x ∧ maxCombine x none = x) ∧
    (List.foldl maxState none ([] : List TypeID) = none) ∧
    (l1 ≠ [] → ∃ t, List.foldl maxState none l1 = some t) ∧
    (maxCombine (List.foldl maxState none l1) (List.foldl maxState none l2)
      = List.foldl maxState none (l1 ++ l2)) ∧
    (∀ t, List.foldl maxState none l1 = some t →
      t ∈ l1 ∧ ∀ u ∈ l1, TypeID.lt t u = false) := by
  refine ⟨minCombine_assoc x y z, minCombine_comm x y,
    ⟨minCombine_none_left x, minCombine_none_right x⟩, rfl, ?_, ?_, ?_,
    maxCombine_assoc x y z, maxCombine_comm x y,
    ⟨maxCombine_none_left x, maxCombine_none_right x⟩, rfl, ?_, ?_, ?_⟩
  · intro hne
    cases l1 with
    | nil => exact absurd rfl hne
    | cons a l => exact foldl_minState_isSome l a
  · rw [List.foldl_append, foldl_minState_combine l2 (List.foldl minState none l1)]
  · intro t ht
    obtain ⟨hmem, hall, _⟩ := foldl_minState_mem l1 none t ht
    refine ⟨?_, hall⟩
    rcases hmem with h | h
    · exact h
    · cases h
  · intro hne
    cases l1 with
    | nil => exact absurd rfl hne
    | cons a l => exact foldl_maxState_isSome l a
  · rw [List.foldl_append, foldl_maxState_combine l2 (List.foldl maxState none l1)]
  · intro t ht
    obtain ⟨hmem, hall, _⟩ := foldl_maxState_mem l1 none t ht
    refine ⟨?_, hall⟩
    rcases hmem with h | h
    · exact h
    · cases h

/-- C9 (witness): the min fold of two concrete TypeIDs evaluated, showing
the result is a member that nothing in the list is smaller than. -/
theorem C9_aggregate_witness :
    (⟨⟨[]⟩, 0⟩ : TypeID) ∈ [(⟨⟨[]⟩, 1⟩ : TypeID), ⟨⟨[]⟩, 0⟩] ∧
    ∀ u ∈ [(⟨⟨[]⟩, 1⟩ : TypeID), ⟨⟨[]⟩, 0⟩],
      TypeID.lt u ⟨⟨[]⟩, 0⟩ = false :=
  (C9_aggregate [⟨⟨[]⟩, 1⟩, ⟨⟨[]⟩, 0⟩] [] none none none).2.2.2.2.2.2.1
    ⟨⟨[]⟩, 0⟩ (by rfl)

/-- C10 (counterexample): the public constructor `TypeIDPrefix::try_unsafe`
bypasses validation: applied to the digit tag `0` it returns a
`TypeIDPrefix` carrying those bytes unchanged with no typed error, even
though the bytes violate the §3 grammar (`validate_prefix` rejects them). -/
theorem C10_try_unsafe_counterexample :
    (TypeIDPrefix.try_unsafe [48]).bytes = [48] ∧
    ¬ prefixGrammar ((TypeIDPrefix.try_unsafe [48]).bytes) ∧
    validate_prefix ((TypeIDPrefix.try_unsafe [48]).bytes)
      = .error (.InvalidPrefix [48] (.digit 48 0)) :=
  ⟨rfl, by decide, by rfl⟩

/-- C10 (amended): every validating producer of prefixes upholds the
grammar: `TypeIDPrefix::new` returns only grammar-conforming wrappers of
its input, every TypeID produced by `from_string` carries a
grammar-conforming prefix, `new_nil` carries the (valid) empty prefix, and
`TypeID::new` preserves the prefix it is given — only `try_unsafe` can
break the invariant. -/
theorem C10_validated_construction (tag s : List Nat) (p : TypeIDPrefix)
    (t : TypeID) (u : Nat) :
    (TypeIDPrefix.new tag = .ok p → p.bytes = tag ∧ prefixGrammar p.bytes) ∧
    (TypeID.from_string s = .ok t → prefixGrammar t.pfx.bytes) ∧
    prefixGrammar (TypeID.new_nil u).pfx.bytes ∧
    (TypeID.new p u).pfx = p := by
  refine ⟨?_, ?_, Or.inl rfl, rfl⟩
  · intro h
    obtain ⟨hp, hval⟩ := TypeIDPrefix_new_ok_elim tag p h
    subst hp
    exact ⟨rfl, (validate_prefix_ok_iff tag).mp hval⟩
  · intro h
    exact (validate_prefix_ok_iff _).mp (from_string_ok_validate s t h)

/-- C10 (witness): the amended invariant evaluated at the tag `u`. -/
theorem C10_validated_construction_witness :
    (⟨[117]⟩ : TypeIDPrefix).bytes = [117] ∧ prefixGrammar (⟨[117]⟩ : TypeIDPrefix).bytes :=
  (C10_validated_construction [117] [] ⟨[117]⟩ ⟨⟨[]⟩, 0⟩ 0).1 (by rfl)

end TypeidPg
